import Mathlib

/-!
Verification of the CTMRG / iPEPS environment and reduced-density-matrix core
of the peps-torch repository.

The tensor entries of the program are real or complex floating point numbers.
We embed them as complex numbers with rational components (`CQ`), so that all
definitions are executable and all arithmetic is exact.  Tensors are embedded
as functions on `Fin`-indexed tuples, contractions (`torch.tensordot`,
`torch.einsum`) as `Finset` sums, `permute`/`view` as explicit index plumbing
(a fused leg of dimension `D*D` is typed as the isomorphic index set
`Fin D × Fin D`).  Linear-algebra primitives of the backend (eigenvalue
decomposition) are treated as external collaborators, exactly as the spec
declares them: routines that consume an eigendecomposition take its result as
an explicit argument, constrained by the algebraic equations the backend
guarantees.
-/

/-- Complex numbers with rational real and imaginary part.  This is the exact
counterpart of the program's `torch.complex128` scalars; real dtype values are
the elements with `im = 0`. -/
structure CQ where
  re : ℚ
  im : ℚ
  deriving DecidableEq, Repr

theorem CQ.ext_iff2 (a b : CQ) : a = b ↔ a.re = b.re ∧ a.im = b.im := by
  cases a; cases b; simp

def CQ.add (a b : CQ) : CQ := ⟨a.re + b.re, a.im + b.im⟩

def CQ.neg (a : CQ) : CQ := ⟨-a.re, -a.im⟩

def CQ.sub (a b : CQ) : CQ := ⟨a.re - b.re, a.im - b.im⟩

def CQ.mul (a b : CQ) : CQ := ⟨a.re * b.re - a.im * b.im, a.re * b.im + a.im * b.re⟩

instance : Zero CQ := ⟨⟨0, 0⟩⟩

instance : One CQ := ⟨⟨1, 0⟩⟩

instance : Add CQ := ⟨CQ.add⟩

instance : Neg CQ := ⟨CQ.neg⟩

instance : Sub CQ := ⟨CQ.sub⟩

instance : Mul CQ := ⟨CQ.mul⟩

theorem CQ.add_def (a b : CQ) : a + b = ⟨a.re + b.re, a.im + b.im⟩ := rfl

theorem CQ.mul_def (a b : CQ) : a * b = ⟨a.re * b.re - a.im * b.im, a.re * b.im + a.im * b.re⟩ := rfl

theorem CQ.neg_def (a : CQ) : -a = ⟨-a.re, -a.im⟩ := rfl

theorem CQ.sub_def (a b : CQ) : a - b = ⟨a.re - b.re, a.im - b.im⟩ := rfl

theorem CQ.zero_def : (0 : CQ) = ⟨0, 0⟩ := rfl

theorem CQ.one_def : (1 : CQ) = ⟨1, 0⟩ := rfl

instance : CommRing CQ where
  add_assoc a b c := by simp [CQ.add_def, CQ.ext_iff2]; constructor <;> ring
  zero_add a := by simp [CQ.add_def, CQ.zero_def, CQ.ext_iff2]
  add_zero a := by simp [CQ.add_def, CQ.zero_def, CQ.ext_iff2]
  add_comm a b := by simp [CQ.add_def, CQ.ext_iff2]; constructor <;> ring
  mul_assoc a b c := by simp [CQ.mul_def, CQ.ext_iff2]; constructor <;> ring
  one_mul a := by simp [CQ.mul_def, CQ.one_def, CQ.ext_iff2]
  mul_one a := by simp [CQ.mul_def, CQ.one_def, CQ.ext_iff2]
  left_distrib a b c := by simp [CQ.mul_def, CQ.add_def, CQ.ext_iff2]; constructor <;> ring
  right_distrib a b c := by simp [CQ.mul_def, CQ.add_def, CQ.ext_iff2]; constructor <;> ring
  mul_comm a b := by simp [CQ.mul_def, CQ.ext_iff2]; constructor <;> ring
  zero_mul a := by simp [CQ.mul_def, CQ.zero_def, CQ.ext_iff2]
  mul_zero a := by simp [CQ.mul_def, CQ.zero_def, CQ.ext_iff2]
  neg_add_cancel a := by simp [CQ.add_def, CQ.neg_def, CQ.zero_def, CQ.ext_iff2]
  sub_eq_add_neg a b := by simp [CQ.sub_def, CQ.add_def, CQ.neg_def, CQ.ext_iff2]; constructor <;> ring
  nsmul := nsmulRec
  zsmul := zsmulRec

/-- Complex conjugation, the embedding of `torch.conj` on scalars. -/
def CQ.conj (a : CQ) : CQ := ⟨a.re, -a.im⟩

theorem CQ.conj_def (a : CQ) : a.conj = ⟨a.re, -a.im⟩ := rfl

theorem CQ.conj_conj (a : CQ) : a.conj.conj = a := by
  simp [CQ.conj_def]

theorem CQ.conj_add (a b : CQ) : (a + b).conj = a.conj + b.conj := by
  simp [CQ.conj_def, CQ.add_def]; ring

theorem CQ.conj_mul (a b : CQ) : (a * b).conj = a.conj * b.conj := by
  simp only [CQ.conj_def, CQ.mul_def, CQ.ext_iff2]
  constructor <;> ring

/-- Embedding of a real scalar (a value of the program's real dtype). -/
def CQ.ofQ (q : ℚ) : CQ := ⟨q, 0⟩

theorem CQ.ofQ_def (q : ℚ) : CQ.ofQ q = ⟨q, 0⟩ := rfl

/-- Squared modulus of a complex scalar; `|z|` of the backend satisfies
`|z| * |z| = sqAbs z`, and `sqAbs` itself stays inside ℚ. -/
def CQ.sqAbs (a : CQ) : ℚ := a.re * a.re + a.im * a.im

/-- Division of a complex scalar by a real scalar (tensor / real norm). -/
def CQ.divQ (a : CQ) (q : ℚ) : CQ := ⟨a.re / q, a.im / q⟩

/-- Full complex division, the embedding of `z / w` on complex scalars. -/
def CQ.div (a b : CQ) : CQ :=
  ⟨(a.re * b.re + a.im * b.im) / b.sqAbs, (a.im * b.re - a.re * b.im) / b.sqAbs⟩

theorem CQ.divQ_def (a : CQ) (q : ℚ) : a.divQ q = ⟨a.re / q, a.im / q⟩ := rfl

theorem CQ.div_def (a b : CQ) :
    a.div b = ⟨(a.re * b.re + a.im * b.im) / b.sqAbs, (a.im * b.re - a.re * b.im) / b.sqAbs⟩ := rfl

theorem CQ.conj_divQ (a : CQ) (q : ℚ) : (a.divQ q).conj = a.conj.divQ q := by
  simp [CQ.conj_def, CQ.divQ_def, neg_div]

theorem CQ.divQ_add (a b : CQ) (q : ℚ) : (a + b).divQ q = a.divQ q + b.divQ q := by
  simp [CQ.divQ_def, CQ.add_def, add_div]

theorem CQ.divQ_mul_right (a b : CQ) (q : ℚ) : (a.divQ q) * b = (a * b).divQ q := by
  simp only [CQ.divQ_def, CQ.mul_def, CQ.ext_iff2]
  constructor <;> ring

theorem CQ.div_add (a b c : CQ) : (a + b).div c = a.div c + b.div c := by
  simp only [CQ.div_def, CQ.add_def, CQ.ext_iff2]
  constructor <;> ring

theorem CQ.div_mul_right (a b c : CQ) : (a.div c) * b = (a * b).div c := by
  simp only [CQ.div_def, CQ.mul_def, CQ.ext_iff2]
  constructor <;> ring

/-- Real part as an additive monoid homomorphism (used to move `re` through sums). -/
def CQ.reHom : CQ →+ ℚ where
  toFun := CQ.re
  map_zero' := rfl
  map_add' := fun _ _ => rfl

/-- Imaginary part as an additive monoid homomorphism. -/
def CQ.imHom : CQ →+ ℚ where
  toFun := CQ.im
  map_zero' := rfl
  map_add' := fun _ _ => rfl

/-- Conjugation as an additive monoid homomorphism. -/
def CQ.conjHom : CQ →+ CQ where
  toFun := CQ.conj
  map_zero' := rfl
  map_add' := CQ.conj_add

theorem CQ.reHom_apply (a : CQ) : CQ.reHom a = a.re := rfl

theorem CQ.imHom_apply (a : CQ) : CQ.imHom a = a.im := rfl

theorem CQ.conjHom_apply (a : CQ) : CQ.conjHom a = a.conj := rfl

/-- Square matrices over `CQ`, indexed by an arbitrary finite index type.  A
matrix leg of fused dimension `D*D` is indexed by `Fin D × Fin D`. -/
abbrev MatI (ι : Type) := ι → ι → CQ

def madd (M N : MatI ι) : MatI ι := fun i j => M i j + N i j

/-- Multiplication of a matrix by a real scalar (e.g. the literal `0.5`). -/
def msmulQ (q : ℚ) (M : MatI ι) : MatI ι := fun i j => CQ.ofQ q * M i j

/-- Plain transpose, the embedding of `rdm.t()`. -/
def mT (M : MatI ι) : MatI ι := fun i j => M j i

/-- Conjugate transpose, the embedding of `rdm.conj().t()`. -/
def mH (M : MatI ι) : MatI ι := fun i j => (M j i).conj

def mtrace [Fintype ι] (M : MatI ι) : CQ := ∑ i, M i i

def mId [DecidableEq ι] : MatI ι := fun i j => if i = j then 1 else 0

/-- Entrywise division of a matrix by a real scalar. -/
def mdivQ (M : MatI ι) (r : ℚ) : MatI ι := fun i j => (M i j).divQ r

/-- Entrywise division of a matrix by a complex scalar (`rdm / torch.trace(rdm)`
for a complex trace). -/
def mdivC (M : MatI ι) (z : CQ) : MatI ι := fun i j => (M i j).div z

def mmul [Fintype ι] (M N : MatI ι) : MatI ι := fun i j => ∑ k, M i k * N k j

def mulVec [Fintype ι] (M : MatI ι) (v : ι → CQ) : ι → CQ := fun i => ∑ j, M i j * v j

def vsmul (z : CQ) (v : ι → CQ) : ι → CQ := fun i => z * v i

/-- Diagonal matrix with real diagonal entries (`torch.diag(D)` for the real
eigenvalue vector `D`). -/
def diagQ [DecidableEq ι] (d : ι → ℚ) : MatI ι := fun i j => if i = j then CQ.ofQ (d i) else 0

/-- Hermiticity of a matrix: it equals its own conjugate transpose. -/
def IsHerm (M : MatI ι) : Prop := mH M = M

/-- A matrix of the program's real dtype: all entries have vanishing
imaginary part. -/
def IsRealMat (M : MatI ι) : Prop := ∀ i j, (M i j).im = 0

/-- Embedding of `_cast_to_real` (src/ctm/generic/rdm.py lines 12-21).  The
input is complex; for a tensor of real dtype the function returns its input
unchanged, which coincides with returning the real part.  The returned flag
records whether the warning branch was taken.  The float literal `1.0e-8`
is embedded as the exact rational it denotes. -/
def castToReal (failOnCheck warnOnCheck : Bool) (imagEps : ℚ) (t : CQ) :
    Except String (ℚ × Bool) :=
  if |t.im| / (|t.re| + 1 / 100000000) > imagEps then
    if failOnCheck then Except.error "Unexpected imaginary part"
    else Except.ok (t.re, warnOnCheck)
  else Except.ok (t.re, false)

/-- Default `imag_eps` of `_cast_to_real`. -/
def imagEpsDefault : ℚ := 1 / 100000000

/-- The decidable warning condition of `_cast_to_real`. -/
def relCheckExceeds (imagEps : ℚ) (t : CQ) : Bool :=
  decide (|t.im| / (|t.re| + 1 / 100000000) > imagEps)

/-- Value produced by `_cast_to_real` when called with the default
`fail_on_check=False` (the only way it is called in rdm.py): it never raises
and always yields the real part. -/
def castToRealNoFail (t : CQ) : ℚ := t.re

/-- Hermitian symmetrization `0.5 * (rdm + rdm.conj().t())`
(src/ctm/generic/rdm.py line 26). -/
def symHalfH (M : MatI ι) : MatI ι := msmulQ (1 / 2) (madd M (mH M))

/-- Transpose-only symmetrization `0.5 * (rdm + rdm.t())` used by the C4v
routines (src/ctm/one_site_c4v/rdm_c4v.py lines 98, 239, 400, 512, 684, 853, 989):
note the absence of complex conjugation. -/
def symHalfT (M : MatI ι) : MatI ι := msmulQ (1 / 2) (madd M (mT M))

/-- Check `D.min() < 0` of `_sym_pos_def_matrix` on the real eigenvalue
vector returned by the backend. -/
def hasNegEntry [Fintype ι] (d : ι → ℚ) : Bool := decide (∃ i, d i < 0)

/-- Reconstruction `U @ torch.diag(torch.clamp(D, min=0)) @ U.conj().t()`
(src/ctm/generic/rdm.py lines 37-38). -/
def clampReconstruct [Fintype ι] [DecidableEq ι] (U : MatI ι) (d : ι → ℚ) : MatI ι :=
  mmul (mmul U (diagQ fun i => max (d i) 0)) (mH U)

/-- The matrix held in `rdm` just before normalization in
`_sym_pos_def_matrix` (src/ctm/generic/rdm.py lines 24-39): the Hermitian
symmetrization, replaced by the clamped eigen-reconstruction only when
`sym_pos_def` is requested and a negative eigenvalue is present.  The
eigendecomposition `(U, d)` of the symmetrized matrix is computed by the
external backend (`torch.linalg.eigh`); it enters as an argument. -/
def spdSelect [Fintype ι] [DecidableEq ι] (symPosDef : Bool) (U : MatI ι) (d : ι → ℚ)
    (M : MatI ι) : MatI ι :=
  if symPosDef && hasNegEntry d then clampReconstruct U d else symHalfH M

/-- Embedding of `_sym_pos_def_matrix` (src/ctm/generic/rdm.py lines 24-42):
symmetrize, optionally clamp-reconstruct, then divide by the real part of the
trace (`_cast_to_real` is called with default flags, so it never raises). -/
def symPosDefMatrix [Fintype ι] [DecidableEq ι] (symPosDef : Bool) (U : MatI ι) (d : ι → ℚ)
    (M : MatI ι) : MatI ι :=
  mdivQ (spdSelect symPosDef U d M) (castToRealNoFail (mtrace (spdSelect symPosDef U d M)))

/-- Embedding of the post-processing block shared by the C4v routines
`rdm1x1`, `rdm1x1_sl`, `rdm2x1`, `rdm2x1_sl`, `_rdm2x2_NN_lowmem`,
`_rdm2x2_NNN_lowmem` (src/ctm/one_site_c4v/rdm_c4v.py lines 97-110, 681-694,
and analogues): symmetrize by plain transpose, add `eps` times the identity,
and divide by the (complex) trace.  Here `eps` is the scalar the source
computes from the backend eigendecomposition: the absolute value of the
minimal (real part of an) eigenvalue when that minimum is negative, and `0.0`
otherwise.  It enters as an argument because the eigendecomposition is
performed by the external backend. -/
def c4vSymShiftNorm [Fintype ι] [DecidableEq ι] (eps : ℚ) (M : MatI ι) : MatI ι :=
  mdivC (madd (symHalfT M) (msmulQ eps mId))
    (mtrace (madd (symHalfT M) (msmulQ eps mId)))

/-- Embedding of the tail of `rdm_c4v.rdm2x2` (src/ctm/one_site_c4v/rdm_c4v.py
lines 985-1003): under its default `sym_pos_def=True` it only symmetrizes by
plain transpose (the eigen-shift block is commented out in the source), then
divides by the complex trace. -/
def c4vRdm2x2Post [Fintype ι] (symPosDef : Bool) (M : MatI ι) : MatI ι :=
  mdivC (if symPosDef then symHalfT M else M)
    (mtrace (if symPosDef then symHalfT M else M))

theorem CQ.conj_div (a b : CQ) : (a.div b).conj = a.conj.div b.conj := by
  simp only [CQ.div_def, CQ.conj_def, CQ.sqAbs, CQ.ext_iff2]
  constructor <;> ring_nf

theorem CQ.sqAbs_mul (a b : CQ) : (a * b).sqAbs = a.sqAbs * b.sqAbs := by
  simp only [CQ.sqAbs, CQ.mul_def]
  ring

theorem CQ.sqAbs_eq_zero_iff (a : CQ) : a.sqAbs = 0 ↔ a = 0 := by
  constructor
  · intro h
    have h1 : a.re * a.re + a.im * a.im = 0 := h
    have h2 : a.re = 0 ∧ a.im = 0 := by
      constructor
      · nlinarith [sq_nonneg a.re, sq_nonneg a.im]
      · nlinarith [sq_nonneg a.re, sq_nonneg a.im]
    rw [CQ.ext_iff2]
    exact h2
  · intro h
    subst h
    simp [CQ.sqAbs, CQ.zero_def]

theorem CQ.mul_eq_zero_iff (a b : CQ) : a * b = 0 ↔ a = 0 ∨ b = 0 := by
  constructor
  · intro h
    have h1 : (a * b).sqAbs = 0 := by rw [h]; simp [CQ.sqAbs, CQ.zero_def]
    rw [CQ.sqAbs_mul] at h1
    rcases mul_eq_zero.mp h1 with h2 | h2
    · exact Or.inl ((CQ.sqAbs_eq_zero_iff a).mp h2)
    · exact Or.inr ((CQ.sqAbs_eq_zero_iff b).mp h2)
  · rintro (h | h) <;> subst h <;> simp

theorem mH_mH (M : MatI ι) : mH (mH M) = M := by
  funext i j
  simp [mH, CQ.conj_conj]

/-- The Hermitian symmetrization of `_sym_pos_def_matrix` is exactly
Hermitian, for every complex input. -/
theorem isHerm_symHalfH (M : MatI ι) : IsHerm (symHalfH M) := by
  funext i j
  simp only [mH, symHalfH, msmulQ, madd, CQ.conj_mul, CQ.conj_add, CQ.conj_conj]
  have hq : (CQ.ofQ (1 / 2)).conj = CQ.ofQ (1 / 2) := rfl
  rw [hq]
  ring_nf

theorem CQ.conj_sum {α : Type} (s : Finset α) (f : α → CQ) :
    (∑ i ∈ s, f i).conj = ∑ i ∈ s, (f i).conj := by
  exact map_sum CQ.conjHom f s

theorem CQ.conj_ofQ (q : ℚ) : (CQ.ofQ q).conj = CQ.ofQ q := by
  simp [CQ.conj_def, CQ.ofQ_def]

theorem clampReconstruct_apply [Fintype ι] [DecidableEq ι] (U : MatI ι) (d : ι → ℚ) (i j : ι) :
    clampReconstruct U d i j = ∑ k, U i k * CQ.ofQ (max (d k) 0) * (U j k).conj := by
  simp only [clampReconstruct, mmul, mH, diagQ, mul_ite, mul_zero]
  rw [Finset.sum_congr rfl]
  intro x _
  rw [Finset.sum_ite_eq' Finset.univ x fun k => U i k * CQ.ofQ (d k ⊔ 0)]
  simp

/-- The clamped eigen-reconstruction `U @ diag(max(D,0)) @ U^H` is Hermitian
for every matrix `U` and every real vector `D`. -/
theorem isHerm_clampReconstruct [Fintype ι] [DecidableEq ι] (U : MatI ι) (d : ι → ℚ) :
    IsHerm (clampReconstruct U d) := by
  funext i j
  simp only [mH, clampReconstruct_apply, CQ.conj_sum]
  apply Finset.sum_congr rfl
  intro k _
  simp only [CQ.conj_mul, CQ.conj_conj, CQ.conj_ofQ]
  ring

theorem CQ.ofQ_mul_im (q : ℚ) (a : CQ) : (CQ.ofQ q * a).im = q * a.im := by
  simp [CQ.ofQ_def, CQ.mul_def]

theorem isHerm_mdivQ (M : MatI ι) (r : ℚ) (h : IsHerm M) : IsHerm (mdivQ M r) := by
  funext i j
  have he : (M j i).conj = M i j := congrFun (congrFun h i) j
  simp only [mH, mdivQ, CQ.conj_divQ, he]

theorem isHerm_spdSelect [Fintype ι] [DecidableEq ι] (spd : Bool) (U : MatI ι) (d : ι → ℚ)
    (M : MatI ι) : IsHerm (spdSelect spd U d M) := by
  unfold spdSelect
  by_cases hb : (spd && hasNegEntry d) = true
  · rw [if_pos hb]
    exact isHerm_clampReconstruct U d
  · rw [if_neg hb]
    exact isHerm_symHalfH M

/-- Symmetry of the transpose-symmetrized matrix. -/
theorem mT_symHalfT (M : MatI ι) : mT (symHalfT M) = symHalfT M := by
  funext i j
  simp only [mT, symHalfT, msmulQ, madd]
  ring

theorem isRealMat_symHalfT (M : MatI ι) (h : IsRealMat M) : IsRealMat (symHalfT M) := by
  intro i j
  simp only [symHalfT, msmulQ, madd, CQ.ofQ_mul_im]
  have h1 := h i j
  have h2 := h j i
  simp only [mT, CQ.add_def]
  simp [h1, h2]

theorem isRealMat_shift (M : MatI ι) [DecidableEq ι] (eps : ℚ) (h : IsRealMat M) :
    IsRealMat (madd M (msmulQ eps mId)) := by
  intro i j
  simp only [madd, msmulQ, mId, CQ.add_def]
  by_cases hij : i = j
  · subst hij
    simp [CQ.mul_def, CQ.ofQ_def, CQ.one_def, h i i]
  · simp [hij, CQ.mul_def, CQ.zero_def, h i j]

theorem mT_shift (M : MatI ι) [DecidableEq ι] (eps : ℚ) (h : mT M = M) :
    mT (madd M (msmulQ eps mId)) = madd M (msmulQ eps mId) := by
  funext i j
  have he : M j i = M i j := congrFun (congrFun h i) j
  simp only [mT, madd, msmulQ, mId, he]
  by_cases hij : i = j
  · simp [hij]
  · rw [if_neg hij, if_neg (fun hji => hij hji.symm)]

theorem mtrace_im_zero [Fintype ι] (M : MatI ι) (h : IsRealMat M) : (mtrace M).im = 0 := by
  unfold mtrace
  have hs : (∑ i, M i i).im = ∑ i, (M i i).im := map_sum CQ.imHom (fun i => M i i) Finset.univ
  rw [hs]
  apply Finset.sum_eq_zero
  intro i _
  exact h i i

theorem CQ.div_real_real (a b : CQ) (ha : a.im = 0) (hb : b.im = 0) : (a.div b).im = 0 := by
  simp [CQ.div_def, ha, hb]

/-- A real symmetric matrix divided entrywise by a real complex scalar is
Hermitian. -/
theorem isHerm_mdivC_real [Fintype ι] (M : MatI ι) (z : CQ) (hre : IsRealMat M)
    (hsy : mT M = M) (hz : z.im = 0) : IsHerm (mdivC M z) := by
  funext i j
  have he : M j i = M i j := congrFun (congrFun hsy i) j
  have h1 : ∀ a b, (M a b).conj = M a b := by
    intro a b
    rw [CQ.ext_iff2]
    simp [CQ.conj_def, hre a b]
  have h2 : z.conj = z := by
    rw [CQ.ext_iff2]
    simp [CQ.conj_def, hz]
  simp only [mH, mdivC, CQ.conj_div, h1, h2, he]

/-- Contraction `rdm = torch.einsum('abi,abj->ij', C2x2, C2x2)` of
`_rdm2x2_NN_lowmem` (src/ctm/one_site_c4v/rdm_c4v.py line 662), acting on the
three-leg intermediate produced at line 649.  Its physical leg of dimension
`d**2` is typed as `Fin d × Fin d`. -/
def nnLowmemGram {p q d : ℕ} (c : Fin p → Fin q → (Fin d × Fin d) → CQ) :
    MatI (Fin d × Fin d) :=
  fun i j => ∑ a, ∑ b, c a b i * c a b j

/-- Index plumbing `rdm.view(d,d,d,d).permute(0,2,1,3).view(d**2,d**2)` of
`_rdm2x2_NN_lowmem` (src/ctm/one_site_c4v/rdm_c4v.py lines 670-683): the
matrix entry at row `(s0,s1)`, column `(t0,t1)` is the Gram entry at
`((s0,t0),(s1,t1))`. -/
def nnLowmemPermute {d : ℕ} (G : MatI (Fin d × Fin d)) : MatI (Fin d × Fin d) :=
  fun r c => G (r.1, c.1) (r.2, c.2)

/-- Composition of the final contraction, index plumbing and post-processing
of `_rdm2x2_NN_lowmem` (src/ctm/one_site_c4v/rdm_c4v.py lines 662-694).
`eps` is the spectral shift computed by `torch.symeig` at lines 685-690. -/
def nnLowmemProcessed {p q d : ℕ} (eps : ℚ) (c : Fin p → Fin q → (Fin d × Fin d) → CQ) :
    MatI (Fin d × Fin d) :=
  c4vSymShiftNorm eps (nnLowmemPermute (nnLowmemGram c))

/-- Concrete complex intermediate of shape `(1, 1, 2*2)` with entries
`(1, i, 0, 0)` along the physical-pair leg. -/
def cwTensor : Fin 1 → Fin 1 → (Fin 2 × Fin 2) → CQ :=
  fun _ _ si => if si = ((0 : Fin 2), (0 : Fin 2)) then ⟨1, 0⟩
    else if si = ((0 : Fin 2), (1 : Fin 2)) then ⟨0, 1⟩ else 0

/-- The transpose-symmetrized matrix `0.5*(rdm+rdm.t())` that
`_rdm2x2_NN_lowmem` hands to `torch.symeig` on the `cwTensor` input. -/
def cwSymmetrized : MatI (Fin 2 × Fin 2) :=
  symHalfT (nnLowmemPermute (nnLowmemGram cwTensor))

/-- Row-major flattening of the fused physical pair index, fixing the order in
which `torch` enumerates the entries of the `d**2 x d**2` matrix. -/
def pairIdx (sp : Fin 2 × Fin 2) : ℕ := 2 * sp.1.val + sp.2.val

/-- The Hermitian matrix that `torch.symeig` actually diagonalizes when handed
`cwSymmetrized`: `symeig` reads one triangle of its input and fills the other
by conjugation, because its input is assumed Hermitian.  `cwSymmetrized` is
complex symmetric but not Hermitian, so this differs from `cwSymmetrized`
strictly below the diagonal (by conjugation of the off-diagonal entries). -/
def cwSymeigInput : MatI (Fin 2 × Fin 2) :=
  fun i j =>
    if pairIdx i ≤ pairIdx j then cwSymmetrized i j else (cwSymmetrized j i).conj

/-- Subtraction of a complex multiple of the identity, `M - a * Id`. -/
def msubC [DecidableEq ι] (M : MatI ι) (a : CQ) : MatI ι :=
  fun i j => M i j - (if i = j then a else 0)

theorem mulVec_mmul [Fintype ι] (A B : MatI ι) (v : ι → CQ) :
    mulVec (mmul A B) v = mulVec A (mulVec B v) := by
  funext i
  simp only [mulVec, mmul, Finset.sum_mul, Finset.mul_sum]
  rw [Finset.sum_comm]
  apply Finset.sum_congr rfl
  intro k _
  apply Finset.sum_congr rfl
  intro j _
  ring

theorem mulVec_msubC [Fintype ι] [DecidableEq ι] (M : MatI ι) (a lam : CQ) (v : ι → CQ)
    (h : mulVec M v = vsmul lam v) : mulVec (msubC M a) v = vsmul (lam - a) v := by
  funext i
  have hM : mulVec M v i = lam * v i := congrFun h i
  simp only [mulVec, msubC, vsmul, sub_mul, Finset.sum_sub_distrib, ite_mul, zero_mul]
  rw [Finset.sum_ite_eq Finset.univ i fun j => a * v j]
  simp only [Finset.mem_univ, if_true]
  rw [show (∑ j, M i j * v j) = lam * v i from hM]

/-- A matrix annihilated by a cubic polynomial with roots `a1, a2, a3` has all
its eigenvalues among those roots.  This pins down the eigenvalues the
backend eigendecomposition reports, hence the spectral shift the C4v routines
compute from them. -/
theorem eigenvalue_of_annihilating [Fintype ι] [DecidableEq ι] (M : MatI ι) (a1 a2 a3 : CQ)
    (hP : mmul (msubC M a1) (mmul (msubC M a2) (msubC M a3)) = fun _ _ => (0 : CQ))
    (lam : CQ) (v : ι → CQ) (hv : v ≠ 0) (h : mulVec M v = vsmul lam v) :
    lam = a1 ∨ lam = a2 ∨ lam = a3 := by
  have h3 : mulVec (msubC M a3) v = vsmul (lam - a3) v := mulVec_msubC M a3 lam v h
  have h2 : mulVec (mmul (msubC M a2) (msubC M a3)) v = vsmul ((lam - a2) * (lam - a3)) v := by
    rw [mulVec_mmul, h3]
    have h2b : mulVec (msubC M a2) (vsmul (lam - a3) v) =
        vsmul (lam - a3) (mulVec (msubC M a2) v) := by
      funext i
      simp only [mulVec, vsmul, Finset.mul_sum]
      apply Finset.sum_congr rfl
      intro j _
      ring
    rw [h2b, mulVec_msubC M a2 lam v h]
    funext i
    simp only [vsmul]
    ring
  have h1 : mulVec (mmul (msubC M a1) (mmul (msubC M a2) (msubC M a3))) v =
      vsmul ((lam - a1) * ((lam - a2) * (lam - a3))) v := by
    rw [mulVec_mmul, h2]
    have h1b : mulVec (msubC M a1) (vsmul ((lam - a2) * (lam - a3)) v) =
        vsmul ((lam - a2) * (lam - a3)) (mulVec (msubC M a1) v) := by
      funext i
      simp only [mulVec, vsmul, Finset.mul_sum]
      apply Finset.sum_congr rfl
      intro j _
      ring
    rw [h1b, mulVec_msubC M a1 lam v h]
    funext i
    simp only [vsmul]
    ring
  rw [hP] at h1
  obtain ⟨i, hi⟩ := Function.ne_iff.mp hv
  have hzero : ((lam - a1) * ((lam - a2) * (lam - a3))) * v i = 0 := by
    have hc := congrFun h1 i
    simp only [mulVec, vsmul, zero_mul, Finset.sum_const_zero] at hc
    exact hc.symm
  have hvi : v i ≠ 0 := by simpa using hi
  rcases (CQ.mul_eq_zero_iff _ _).mp hzero with hz | hz
  · rcases (CQ.mul_eq_zero_iff _ _).mp hz with hz1 | hz23
    · exact Or.inl (sub_eq_zero.mp hz1)
    · rcases (CQ.mul_eq_zero_iff _ _).mp hz23 with hz2 | hz3
      · exact Or.inr (Or.inl (sub_eq_zero.mp hz2))
      · exact Or.inr (Or.inr (sub_eq_zero.mp hz3))
  · exact absurd hz hvi

/-- Explicit entry table of the symmetrized matrix on the `cwTensor` input,
indexed by the row-major flattening. -/
def cwEntry : ℕ → ℕ → CQ
  | 0, 0 => ⟨1, 0⟩
  | 0, 1 => ⟨0, 1 / 2⟩
  | 0, 2 => ⟨0, 1 / 2⟩
  | 0, 3 => ⟨-(1 / 2), 0⟩
  | 1, 0 => ⟨0, 1 / 2⟩
  | 2, 0 => ⟨0, 1 / 2⟩
  | 3, 0 => ⟨-(1 / 2), 0⟩
  | _, _ => 0

def cwS : MatI (Fin 2 × Fin 2) := fun i j => cwEntry (pairIdx i) (pairIdx j)

/-- Explicit entry table of the Hermitian matrix seen by `torch.symeig` on the
`cwTensor` input: the strictly-lower entries are conjugated. -/
def cwHEntry : ℕ → ℕ → CQ
  | 0, 0 => ⟨1, 0⟩
  | 0, 1 => ⟨0, 1 / 2⟩
  | 0, 2 => ⟨0, 1 / 2⟩
  | 0, 3 => ⟨-(1 / 2), 0⟩
  | 1, 0 => ⟨0, -(1 / 2)⟩
  | 2, 0 => ⟨0, -(1 / 2)⟩
  | 3, 0 => ⟨-(1 / 2), 0⟩
  | _, _ => 0

def cwH : MatI (Fin 2 × Fin 2) := fun i j => cwHEntry (pairIdx i) (pairIdx j)

set_option maxHeartbeats 1000000 in
theorem cwSymmetrized_eq_table : cwSymmetrized = cwS := by
  funext i j
  rcases i with ⟨i1, i2⟩
  rcases j with ⟨j1, j2⟩
  fin_cases i1 <;> fin_cases i2 <;> fin_cases j1 <;> fin_cases j2 <;>
    simp +decide [cwSymmetrized, symHalfT, msmulQ, madd, mT, nnLowmemPermute, nnLowmemGram,
      cwTensor, cwS, cwEntry, pairIdx, Fin.sum_univ_one, CQ.mul_def, CQ.add_def,
      CQ.zero_def, CQ.ofQ_def, CQ.ext_iff2] <;> norm_num

set_option maxHeartbeats 1000000 in
theorem cwSymeigInput_eq_table : cwSymeigInput = cwH := by
  funext i j
  rcases i with ⟨i1, i2⟩
  rcases j with ⟨j1, j2⟩
  fin_cases i1 <;> fin_cases i2 <;> fin_cases j1 <;> fin_cases j2 <;>
    simp +decide [cwSymeigInput, cwSymmetrized_eq_table, cwS, cwH, cwEntry, cwHEntry, pairIdx,
      CQ.conj_def, CQ.zero_def, CQ.ext_iff2] <;> norm_num

set_option maxHeartbeats 1600000 in
/-- The matrix `torch.symeig` diagonalizes on the `cwTensor` input is
annihilated by `(X - 0)(X - 3/2)(X + 1/2)`. -/
theorem cwSymeigInput_annihilated :
    mmul (msubC cwSymeigInput 0) (mmul (msubC cwSymeigInput (CQ.ofQ (3 / 2)))
      (msubC cwSymeigInput (CQ.ofQ (-(1 / 2))))) = fun _ _ => (0 : CQ) := by
  rw [cwSymeigInput_eq_table]
  funext i j
  rcases i with ⟨i1, i2⟩
  rcases j with ⟨j1, j2⟩
  fin_cases i1 <;> fin_cases i2 <;> fin_cases j1 <;> fin_cases j2 <;>
    simp +decide [mmul, msubC, cwH, cwHEntry, pairIdx, Fintype.sum_prod_type,
      Fin.sum_univ_two, CQ.mul_def, CQ.add_def, CQ.sub_def, CQ.zero_def, CQ.one_def,
      CQ.ofQ_def, CQ.ext_iff2] <;> norm_num

/-- Eigenvector of `cwSymeigInput` with eigenvalue `-1/2`: the eigendecomposition
the source consults therefore reports a negative minimum, and with the spectrum
confined to `{0, 3/2, -1/2}` the source computes `eps = abs(-1/2) = 0.5`. -/
def cwNegVec : Fin 2 × Fin 2 → CQ :=
  fun p => if p = ((0 : Fin 2), (0 : Fin 2)) then ⟨1, 0⟩
    else if p = ((1 : Fin 2), (1 : Fin 2)) then ⟨1, 0⟩ else ⟨0, 1⟩

set_option maxHeartbeats 800000 in
theorem cwNegVec_eigen :
    mulVec cwSymeigInput cwNegVec = vsmul (CQ.ofQ (-(1 / 2))) cwNegVec := by
  rw [cwSymeigInput_eq_table]
  funext p
  rcases p with ⟨p1, p2⟩
  fin_cases p1 <;> fin_cases p2 <;>
    simp +decide [mulVec, vsmul, cwH, cwHEntry, cwNegVec, pairIdx, Fintype.sum_prod_type,
      Fin.sum_univ_two, CQ.mul_def, CQ.add_def, CQ.zero_def, CQ.ofQ_def,
      CQ.ext_iff2] <;> norm_num

theorem cwNegVec_ne_zero : cwNegVec ≠ 0 := by
  intro h
  have h0 := congrFun h ((0 : Fin 2), (0 : Fin 2))
  have h1 : cwNegVec ((0 : Fin 2), (0 : Fin 2)) = ⟨1, 0⟩ := rfl
  have h2 : (0 : (Fin 2 × Fin 2) → CQ) ((0 : Fin 2), (0 : Fin 2)) = ⟨0, 0⟩ := rfl
  rw [h1, h2] at h0
  exact one_ne_zero (congrArg CQ.re h0)

/-- Spectrum confinement for `cwSymeigInput`, instantiating the annihilating
polynomial lemma: every eigenvalue is `0`, `3/2` or `-1/2`. -/
theorem cwSymeigInput_spectrum (lam : CQ) (v : Fin 2 × Fin 2 → CQ) (hv : v ≠ 0)
    (h : mulVec cwSymeigInput v = vsmul lam v) :
    lam = 0 ∨ lam = CQ.ofQ (3 / 2) ∨ lam = CQ.ofQ (-(1 / 2)) := by
  have := eigenvalue_of_annihilating cwSymeigInput 0 (CQ.ofQ (3 / 2)) (CQ.ofQ (-(1 / 2)))
    cwSymeigInput_annihilated lam v hv h
  simpa using this

/-- C1, amended: the post-processing of the generic rdm routines
(`_sym_pos_def_matrix`, hence `rdm1x1` without operator, `rdm2x1`, `rdm1x2`,
`rdm2x2`, `rdm2x2_NNN_11`, `rdm2x2_NNN_1n1` via `_sym_pos_def_rdm`) returns an
exactly Hermitian matrix for every input, both with and without
`sym_pos_def` and for any backend eigendecomposition; the C4v-specialized
routines symmetrize with a plain transpose (no conjugation), so their output
is Hermitian whenever the tensors are of real dtype, for every spectral
shift `eps`.  For complex dtype the C4v routines do not guarantee
Hermiticity (see the counterexample). -/
theorem rdm_postprocessing_hermiticity :
    (∀ (ι : Type) (_ : Fintype ι) (_ : DecidableEq ι) (spd : Bool) (U : MatI ι)
      (d : ι → ℚ) (M : MatI ι), IsHerm (symPosDefMatrix spd U d M)) ∧
    (∀ (ι : Type) (_ : Fintype ι) (_ : DecidableEq ι) (eps : ℚ) (M : MatI ι),
      IsRealMat M → IsHerm (c4vSymShiftNorm eps M)) := by
  constructor
  · intro ι _ _ spd U d M
    exact isHerm_mdivQ _ _ (isHerm_spdSelect spd U d M)
  · intro ι _ _ eps M hM
    unfold c4vSymShiftNorm
    apply isHerm_mdivC_real
    · exact isRealMat_shift _ eps (isRealMat_symHalfT M hM)
    · exact mT_shift _ eps (mT_symHalfT M)
    · exact mtrace_im_zero _ (isRealMat_shift _ eps (isRealMat_symHalfT M hM))

/-- Trace of the shifted symmetrized matrix on the `cwTensor` input. -/
theorem cwShifted_trace :
    mtrace (madd cwS (msmulQ (1 / 2) mId)) = (⟨3, 0⟩ : CQ) := by
  simp +decide [mtrace, Fintype.sum_prod_type, Fin.sum_univ_two, madd, msmulQ, mId, cwS,
    cwEntry, pairIdx, CQ.mul_def, CQ.add_def, CQ.zero_def, CQ.one_def, CQ.ofQ_def,
    CQ.ext_iff2]
  norm_num

/-- C1, counterexample: on a complex intermediate of valid shape, the
post-processing of `_rdm2x2_NN_lowmem` (transpose symmetrization, spectral
shift `eps = 0.5` as computed by `torch.symeig` — justified by
`cwSymeigInput_spectrum` and `cwNegVec_eigen` — and trace normalization)
returns a matrix that differs from its conjugate transpose by `1/3` in one
entry: it is complex symmetric, not Hermitian. -/
theorem nnLowmem_complex_not_hermitian :
    nnLowmemProcessed (1 / 2) cwTensor ((0 : Fin 2), (0 : Fin 2)) ((0 : Fin 2), (1 : Fin 2)) =
      (⟨0, 1 / 6⟩ : CQ) ∧
    mH (nnLowmemProcessed (1 / 2) cwTensor) ((0 : Fin 2), (0 : Fin 2)) ((0 : Fin 2), (1 : Fin 2)) =
      (⟨0, -(1 / 6)⟩ : CQ) ∧
    nnLowmemProcessed (1 / 2) cwTensor ≠ mH (nnLowmemProcessed (1 / 2) cwTensor) := by
  have hrho : nnLowmemProcessed (1 / 2) cwTensor =
      mdivC (madd cwS (msmulQ (1 / 2) mId)) (⟨3, 0⟩ : CQ) := by
    show c4vSymShiftNorm (1 / 2) (nnLowmemPermute (nnLowmemGram cwTensor)) = _
    unfold c4vSymShiftNorm
    rw [show symHalfT (nnLowmemPermute (nnLowmemGram cwTensor)) = cwSymmetrized from rfl]
    rw [cwSymmetrized_eq_table, cwShifted_trace]
  have h1 : nnLowmemProcessed (1 / 2) cwTensor ((0 : Fin 2), (0 : Fin 2))
      ((0 : Fin 2), (1 : Fin 2)) = (⟨0, 1 / 6⟩ : CQ) := by
    rw [hrho]
    simp +decide [mdivC, madd, msmulQ, mId, cwS, cwEntry, pairIdx, CQ.div_def, CQ.sqAbs,
      CQ.mul_def, CQ.add_def, CQ.zero_def, CQ.ofQ_def, CQ.ext_iff2]
    norm_num
  have h2 : nnLowmemProcessed (1 / 2) cwTensor ((0 : Fin 2), (1 : Fin 2))
      ((0 : Fin 2), (0 : Fin 2)) = (⟨0, 1 / 6⟩ : CQ) := by
    rw [hrho]
    simp +decide [mdivC, madd, msmulQ, mId, cwS, cwEntry, pairIdx, CQ.div_def, CQ.sqAbs,
      CQ.mul_def, CQ.add_def, CQ.zero_def, CQ.ofQ_def, CQ.ext_iff2]
    norm_num
  have h2c : mH (nnLowmemProcessed (1 / 2) cwTensor) ((0 : Fin 2), (0 : Fin 2))
      ((0 : Fin 2), (1 : Fin 2)) = (⟨0, -(1 / 6)⟩ : CQ) := by
    show (nnLowmemProcessed (1 / 2) cwTensor ((0 : Fin 2), (1 : Fin 2))
      ((0 : Fin 2), (0 : Fin 2))).conj = _
    rw [h2]
    rfl
  refine ⟨h1, h2c, ?_⟩
  intro heq
  have hc := congrFun (congrFun heq ((0 : Fin 2), (0 : Fin 2))) ((0 : Fin 2), (1 : Fin 2))
  rw [h1, h2c] at hc
  have him := congrArg CQ.im hc
  norm_num at him

/-- C1, witness for the amended theorem: a concrete real matrix sent through
both post-processing paths. -/
theorem rdm_postprocessing_hermiticity_witness :
    IsHerm (symPosDefMatrix false (fun _ _ => 0) (fun _ => 0) (fun _ _ => (⟨2, 0⟩ : CQ) :
      MatI (Fin 1))) ∧
    (IsRealMat (fun _ _ => (⟨2, 0⟩ : CQ) : MatI (Fin 1)) ∧
      IsHerm (c4vSymShiftNorm 0 (fun _ _ => (⟨2, 0⟩ : CQ) : MatI (Fin 1)))) :=
  ⟨rdm_postprocessing_hermiticity.1 (Fin 1) inferInstance inferInstance false _ _ _,
   fun _ _ => rfl,
   rdm_postprocessing_hermiticity.2 (Fin 1) inferInstance inferInstance 0 _ (fun _ _ => rfl)⟩

theorem CQ.divQ_sum {α : Type} (s : Finset α) (f : α → CQ) (r : ℚ) :
    (∑ i ∈ s, f i).divQ r = ∑ i ∈ s, (f i).divQ r :=
  map_sum (AddMonoidHom.mk' (fun z => z.divQ r) (fun a b => CQ.divQ_add a b r) : CQ →+ CQ) f s

theorem CQ.div_sum {α : Type} (s : Finset α) (f : α → CQ) (w : CQ) :
    (∑ i ∈ s, f i).div w = ∑ i ∈ s, (f i).div w :=
  map_sum (AddMonoidHom.mk' (fun z => z.div w) (fun a b => CQ.div_add a b w) : CQ →+ CQ) f s

/-- Eigenvector transfer through entrywise division by a real scalar: this is
what trace normalization does to the spectrum of the generic routines. -/
theorem mulVec_mdivQ [Fintype ι] (M : MatI ι) (r : ℚ) (v : ι → CQ) (lam : CQ)
    (h : mulVec M v = vsmul lam v) :
    mulVec (mdivQ M r) v = vsmul (lam.divQ r) v := by
  funext i
  have hM : mulVec M v i = lam * v i := congrFun h i
  simp only [mulVec, mdivQ, vsmul, CQ.divQ_mul_right]
  rw [← CQ.divQ_sum]
  rw [show (∑ j, M i j * v j) = lam * v i from hM]

/-- Eigenvector transfer through entrywise division by a complex scalar. -/
theorem mulVec_mdivC [Fintype ι] (M : MatI ι) (w : CQ) (v : ι → CQ) (lam : CQ)
    (h : mulVec M v = vsmul lam v) :
    mulVec (mdivC M w) v = vsmul (lam.div w) v := by
  funext i
  have hM : mulVec M v i = lam * v i := congrFun h i
  simp only [mulVec, mdivC, vsmul, CQ.div_mul_right]
  rw [← CQ.div_sum]
  rw [show (∑ j, M i j * v j) = lam * v i from hM]

/-- Eigenvector transfer through the additive shift `M + eps * Id`. -/
theorem mulVec_shift [Fintype ι] [DecidableEq ι] (M : MatI ι) (eps : ℚ) (v : ι → CQ)
    (lam : CQ) (h : mulVec M v = vsmul lam v) :
    mulVec (madd M (msmulQ eps mId)) v = vsmul (lam + CQ.ofQ eps) v := by
  funext i
  have hM : mulVec M v i = lam * v i := congrFun h i
  simp only [mulVec, madd, msmulQ, mId, vsmul, add_mul, Finset.sum_add_distrib, mul_ite,
    mul_one, mul_zero, ite_mul, zero_mul]
  rw [Finset.sum_ite_eq Finset.univ i fun j => CQ.ofQ eps * v j]
  simp only [Finset.mem_univ, if_true]
  rw [show (∑ j, M i j * v j) = lam * v i from hM]

/-- C3, amended, part of the development: without `sym_pos_def` the generic
post-processing only rescales the spectrum of the symmetrized matrix by the
positive normalization constant, while the C4v routines shift every
eigenvalue by `eps` (the magnitude of the most negative eigenvalue) before
rescaling — a non-uniform spectral change applied with no opt-in flag. -/
theorem rdm_spectrum_scaling :
    (∀ (ι : Type) (_ : Fintype ι) (_ : DecidableEq ι) (U : MatI ι) (d : ι → ℚ)
      (M : MatI ι) (v : ι → CQ) (lam : CQ), mulVec (symHalfH M) v = vsmul lam v →
      mulVec (symPosDefMatrix false U d M) v =
        vsmul (lam.divQ (castToRealNoFail (mtrace (symHalfH M)))) v) ∧
    (∀ (ι : Type) (_ : Fintype ι) (_ : DecidableEq ι) (eps : ℚ) (M : MatI ι)
      (v : ι → CQ) (lam : CQ), mulVec (symHalfT M) v = vsmul lam v →
      mulVec (c4vSymShiftNorm eps M) v =
        vsmul ((lam + CQ.ofQ eps).div
          (mtrace (madd (symHalfT M) (msmulQ eps mId)))) v) := by
  constructor
  · intro ι _ _ U d M v lam h
    have hsel : spdSelect false U d M = symHalfH M := by
      unfold spdSelect
      simp
    unfold symPosDefMatrix
    rw [hsel]
    exact mulVec_mdivQ _ _ v lam h
  · intro ι _ _ eps M v lam h
    unfold c4vSymShiftNorm
    exact mulVec_mdivC _ _ v _ (mulVec_shift _ eps v lam h)

/-- Diagonal real matrix `diag(1, -1)`: a well-shaped symmetric input to the
C4v post-processing block whose minimum eigenvalue is `-1`. -/
def dSneg : MatI (Fin 2) :=
  fun i j => if i = j then (if i = 0 then ⟨1, 0⟩ else ⟨-1, 0⟩) else 0

/-- Second standard basis vector of length 2. -/
def e1vec : Fin 2 → CQ := fun i => if i = 1 then ⟨1, 0⟩ else 0

/-- `dSneg` is annihilated by `(X - 1)(X + 1)(X + 1)`: its spectrum is
contained in `{1, -1}`, so the backend eigendecomposition reports minimum
`-1` (attained on `e1vec`) and the C4v source computes `eps = 1`. -/
theorem dSneg_annihilated :
    mmul (msubC dSneg (CQ.ofQ 1)) (mmul (msubC dSneg (CQ.ofQ (-1)))
      (msubC dSneg (CQ.ofQ (-1)))) = fun _ _ => (0 : CQ) := by
  funext i j
  fin_cases i <;> fin_cases j <;>
    simp +decide [mmul, msubC, dSneg, Fin.sum_univ_two, CQ.mul_def, CQ.add_def,
      CQ.sub_def, CQ.zero_def, CQ.one_def, CQ.ofQ_def, CQ.ext_iff2] <;> norm_num

theorem dSneg_spectrum (lam : CQ) (v : Fin 2 → CQ) (hv : v ≠ 0)
    (h : mulVec dSneg v = vsmul lam v) : lam = CQ.ofQ 1 ∨ lam = CQ.ofQ (-1) := by
  have hd := eigenvalue_of_annihilating dSneg (CQ.ofQ 1) (CQ.ofQ (-1)) (CQ.ofQ (-1))
    dSneg_annihilated lam v hv h
  tauto

theorem e1vec_eigen : mulVec dSneg e1vec = vsmul (⟨-1, 0⟩ : CQ) e1vec := by
  funext i
  fin_cases i <;>
    simp +decide [mulVec, vsmul, dSneg, e1vec, Fin.sum_univ_two, CQ.mul_def, CQ.add_def,
      CQ.zero_def, CQ.ext_iff2] <;> norm_num

/-- C3, counterexample: the C4v post-processing (with the shift `eps = 1` its
eigendecomposition computes for `diag(1,-1)`, justified by `dSneg_spectrum`
and `e1vec_eigen`) maps `diag(1,-1)` to `diag(1,0)` although no
`sym_pos_def` opt-in exists on this path: the eigenvalue `-1` of the
symmetrized input is moved to `0` in the output, so the output spectrum is
not the input spectrum, not even up to the trace-normalization scale (no
scalar multiple of the symmetrized input equals the output). -/
theorem c4v_spectrum_modified_without_optin :
    c4vSymShiftNorm 1 dSneg (0 : Fin 2) (0 : Fin 2) = (⟨1, 0⟩ : CQ) ∧
    c4vSymShiftNorm 1 dSneg (1 : Fin 2) (1 : Fin 2) = 0 ∧
    mulVec dSneg e1vec = vsmul (⟨-1, 0⟩ : CQ) e1vec ∧
    mulVec (c4vSymShiftNorm 1 dSneg) e1vec = vsmul 0 e1vec ∧
    ((∃ c : ℚ, c4vSymShiftNorm 1 dSneg = msmulQ c (symHalfT dSneg)) → False) := by
  have htr : mtrace (madd (symHalfT dSneg) (msmulQ 1 mId)) = (⟨2, 0⟩ : CQ) := by
    simp +decide [mtrace, Fin.sum_univ_two, madd, msmulQ, mId, symHalfT, mT, dSneg,
      CQ.mul_def, CQ.add_def, CQ.zero_def, CQ.one_def, CQ.ofQ_def, CQ.ext_iff2]
    norm_num
  have h00 : c4vSymShiftNorm 1 dSneg (0 : Fin 2) (0 : Fin 2) = (⟨1, 0⟩ : CQ) := by
    unfold c4vSymShiftNorm
    rw [htr]
    simp +decide [mdivC, madd, msmulQ, mId, symHalfT, mT, dSneg, CQ.div_def, CQ.sqAbs,
      CQ.mul_def, CQ.add_def, CQ.zero_def, CQ.one_def, CQ.ofQ_def, CQ.ext_iff2]
    norm_num
  have h11 : c4vSymShiftNorm 1 dSneg (1 : Fin 2) (1 : Fin 2) = 0 := by
    unfold c4vSymShiftNorm
    rw [htr]
    simp +decide [mdivC, madd, msmulQ, mId, symHalfT, mT, dSneg, CQ.div_def, CQ.sqAbs,
      CQ.mul_def, CQ.add_def, CQ.zero_def, CQ.one_def, CQ.ofQ_def, CQ.ext_iff2]
    norm_num
  have h01 : c4vSymShiftNorm 1 dSneg (0 : Fin 2) (1 : Fin 2) = 0 := by
    unfold c4vSymShiftNorm
    rw [htr]
    simp +decide [mdivC, madd, msmulQ, mId, symHalfT, mT, dSneg, CQ.div_def, CQ.sqAbs,
      CQ.mul_def, CQ.add_def, CQ.zero_def, CQ.one_def, CQ.ofQ_def, CQ.ext_iff2]
  have h10 : c4vSymShiftNorm 1 dSneg (1 : Fin 2) (0 : Fin 2) = 0 := by
    unfold c4vSymShiftNorm
    rw [htr]
    simp +decide [mdivC, madd, msmulQ, mId, symHalfT, mT, dSneg, CQ.div_def, CQ.sqAbs,
      CQ.mul_def, CQ.add_def, CQ.zero_def, CQ.one_def, CQ.ofQ_def, CQ.ext_iff2]
  refine ⟨h00, h11, e1vec_eigen, ?_, ?_⟩
  · funext i
    fin_cases i
    · show ∑ j, c4vSymShiftNorm 1 dSneg 0 j * e1vec j = 0 * e1vec 0
      rw [Fin.sum_univ_two, h00, h01]
      simp [e1vec, CQ.mul_def, CQ.zero_def, CQ.ext_iff2]
    · show ∑ j, c4vSymShiftNorm 1 dSneg 1 j * e1vec j = 0 * e1vec 1
      rw [Fin.sum_univ_two, h10, h11]
      simp [e1vec, CQ.mul_def, CQ.zero_def, CQ.ext_iff2]
  · rintro ⟨c, hc⟩
    have hc00 := congrFun (congrFun hc (0 : Fin 2)) (0 : Fin 2)
    have hc11 := congrFun (congrFun hc (1 : Fin 2)) (1 : Fin 2)
    rw [h00] at hc00
    rw [h11] at hc11
    have hs00 : msmulQ c (symHalfT dSneg) (0 : Fin 2) (0 : Fin 2) = (⟨c, 0⟩ : CQ) := by
      simp +decide [msmulQ, symHalfT, mT, madd, dSneg, CQ.mul_def, CQ.add_def,
        CQ.ofQ_def, CQ.ext_iff2]
      norm_num
    have hs11 : msmulQ c (symHalfT dSneg) (1 : Fin 2) (1 : Fin 2) = (⟨-c, 0⟩ : CQ) := by
      simp +decide [msmulQ, symHalfT, mT, madd, dSneg, CQ.mul_def, CQ.add_def,
        CQ.ofQ_def, CQ.ext_iff2]
      norm_num
    rw [hs00] at hc00
    rw [hs11] at hc11
    have hre0 := congrArg CQ.re hc00
    have hre1 := congrArg CQ.re hc11
    simp only [CQ.zero_def] at hre1
    norm_num at hre0 hre1
    exact absurd (hre0.trans hre1) one_ne_zero

/-- C3, witness for the amended theorem: both spectral statements instantiated
on a concrete one-dimensional matrix with eigenvalue 2. -/
theorem rdm_spectrum_scaling_witness :
    mulVec (symPosDefMatrix false (fun _ _ => 0) (fun _ => 0)
        (fun _ _ => (⟨2, 0⟩ : CQ) : MatI (Fin 1))) (fun _ => ⟨1, 0⟩) =
      vsmul ((⟨2, 0⟩ : CQ).divQ (castToRealNoFail
        (mtrace (symHalfH (fun _ _ => (⟨2, 0⟩ : CQ) : MatI (Fin 1)))))) (fun _ => ⟨1, 0⟩) ∧
    mulVec (c4vSymShiftNorm 3 (fun _ _ => (⟨2, 0⟩ : CQ) : MatI (Fin 1))) (fun _ => ⟨1, 0⟩) =
      vsmul (((⟨2, 0⟩ : CQ) + CQ.ofQ 3).div
        (mtrace (madd (symHalfT (fun _ _ => (⟨2, 0⟩ : CQ) : MatI (Fin 1)))
          (msmulQ 3 mId)))) (fun _ => ⟨1, 0⟩) := by
  have hH : mulVec (symHalfH (fun _ _ => (⟨2, 0⟩ : CQ) : MatI (Fin 1))) (fun _ => ⟨1, 0⟩) =
      vsmul (⟨2, 0⟩ : CQ) (fun _ => ⟨1, 0⟩) := by
    funext i
    simp [mulVec, symHalfH, msmulQ, madd, mH, vsmul, Fin.sum_univ_one, CQ.conj_def,
      CQ.mul_def, CQ.add_def, CQ.ofQ_def, CQ.ext_iff2]
    norm_num
  have hT : mulVec (symHalfT (fun _ _ => (⟨2, 0⟩ : CQ) : MatI (Fin 1))) (fun _ => ⟨1, 0⟩) =
      vsmul (⟨2, 0⟩ : CQ) (fun _ => ⟨1, 0⟩) := by
    funext i
    simp [mulVec, symHalfT, msmulQ, madd, mT, vsmul, Fin.sum_univ_one, CQ.mul_def,
      CQ.add_def, CQ.ofQ_def, CQ.ext_iff2]
    norm_num
  exact ⟨rdm_spectrum_scaling.1 (Fin 1) inferInstance inferInstance _ _ _ _ _ hH,
    rdm_spectrum_scaling.2 (Fin 1) inferInstance inferInstance 3 _ _ _ hT⟩

/-- C7: `_cast_to_real` under its default flags (`fail_on_check=False`,
`warn_on_check=True`, `imag_eps=1.0e-8`) never raises: it returns the real
part together with the warning flag, and the warning fires exactly when the
imaginary part relative to the real part exceeds the `1.0e-8` tolerance;
with `fail_on_check=True` the same condition raises instead.  This is the
policy `_sym_pos_def_matrix` relies on when normalizing by the trace. -/
theorem cast_to_real_soft_policy (t : CQ) :
    castToReal false true imagEpsDefault t =
      Except.ok (t.re, relCheckExceeds imagEpsDefault t) ∧
    (relCheckExceeds imagEpsDefault t = true ↔
      |t.im| / (|t.re| + 1 / 100000000) > 1 / 100000000) ∧
    (|t.im| / (|t.re| + 1 / 100000000) > imagEpsDefault →
      castToReal true true imagEpsDefault t = Except.error "Unexpected imaginary part") := by
  refine ⟨?_, ?_, ?_⟩
  · unfold castToReal relCheckExceeds
    by_cases hc : |t.im| / (|t.re| + 1 / 100000000) > imagEpsDefault
    · rw [if_pos hc, if_neg (by simp)]
      have : decide (|t.im| / (|t.re| + 1 / 100000000) > imagEpsDefault) = true :=
        decide_eq_true hc
      unfold imagEpsDefault at this ⊢
      rw [this]
    · rw [if_neg hc]
      have : decide (|t.im| / (|t.re| + 1 / 100000000) > imagEpsDefault) = false := by
        simpa using hc
      unfold imagEpsDefault at this ⊢
      rw [this]
  · unfold relCheckExceeds imagEpsDefault
    exact decide_eq_true_iff
  · intro hc
    unfold castToReal
    rw [if_pos hc, if_pos rfl]

theorem CQ.im_sum {α : Type} (s : Finset α) (f : α → CQ) :
    (∑ i ∈ s, f i).im = ∑ i ∈ s, (f i).im :=
  map_sum CQ.imHom f s

theorem CQ.re_sum {α : Type} (s : Finset α) (f : α → CQ) :
    (∑ i ∈ s, f i).re = ∑ i ∈ s, (f i).re :=
  map_sum CQ.reHom f s

theorem mtrace_mdivQ [Fintype ι] (M : MatI ι) (r : ℚ) :
    mtrace (mdivQ M r) = (mtrace M).divQ r := by
  unfold mtrace mdivQ
  rw [CQ.divQ_sum]

theorem mtrace_mdivC [Fintype ι] (M : MatI ι) (w : CQ) :
    mtrace (mdivC M w) = (mtrace M).div w := by
  unfold mtrace mdivC
  rw [CQ.div_sum]

theorem symHalfH_diag_im (M : MatI ι) (i : ι) : (symHalfH M i i).im = 0 := by
  simp [symHalfH, msmulQ, madd, mH, CQ.conj_def, CQ.add_def, CQ.mul_def, CQ.ofQ_def]

theorem clampReconstruct_diag_im [Fintype ι] [DecidableEq ι] (U : MatI ι) (d : ι → ℚ)
    (i : ι) : (clampReconstruct U d i i).im = 0 := by
  rw [clampReconstruct_apply]
  rw [show (∑ k, U i k * CQ.ofQ (max (d k) 0) * (U i k).conj).im =
    ∑ k, (U i k * CQ.ofQ (max (d k) 0) * (U i k).conj).im from
    map_sum CQ.imHom (fun k => U i k * CQ.ofQ (max (d k) 0) * (U i k).conj) Finset.univ]
  apply Finset.sum_eq_zero
  intro k _
  simp [CQ.mul_def, CQ.conj_def, CQ.ofQ_def]
  ring

theorem spdSelect_trace_im [Fintype ι] [DecidableEq ι] (spd : Bool) (U : MatI ι)
    (d : ι → ℚ) (M : MatI ι) : (mtrace (spdSelect spd U d M)).im = 0 := by
  unfold spdSelect
  by_cases hb : (spd && hasNegEntry d) = true
  · rw [if_pos hb]
    unfold mtrace
    rw [CQ.im_sum]
    exact Finset.sum_eq_zero fun i _ => clampReconstruct_diag_im U d i
  · rw [if_neg hb]
    unfold mtrace
    rw [CQ.im_sum]
    exact Finset.sum_eq_zero fun i _ => symHalfH_diag_im M i

theorem CQ.div_self_one (a : CQ) (h : a.sqAbs ≠ 0) : a.div a = 1 := by
  rw [CQ.ext_iff2]
  constructor
  · show (a.re * a.re + a.im * a.im) / a.sqAbs = 1
    rw [show a.re * a.re + a.im * a.im = a.sqAbs from rfl]
    exact div_self h
  · show (a.im * a.re - a.re * a.im) / a.sqAbs = 0
    rw [show a.im * a.re - a.re * a.im = 0 by ring]
    exact zero_div _

/-- C2, amended: the generic post-processing returns a matrix of trace exactly
one whenever the real part of the pre-normalization trace is nonzero (and
that trace is real in both branches), and the C4v transpose-symmetrize-shift
post-processing returns trace one whenever its complex trace is nonzero.
The `aux_*` routines return the bare contraction and are not
trace-normalized (see the counterexample). -/
theorem rdm_trace_normalization :
    (∀ (ι : Type) (_ : Fintype ι) (_ : DecidableEq ι) (spd : Bool) (U : MatI ι)
      (d : ι → ℚ) (M : MatI ι), castToRealNoFail (mtrace (spdSelect spd U d M)) ≠ 0 →
      mtrace (symPosDefMatrix spd U d M) = (⟨1, 0⟩ : CQ)) ∧
    (∀ (ι : Type) (_ : Fintype ι) (_ : DecidableEq ι) (eps : ℚ) (M : MatI ι),
      (mtrace (madd (symHalfT M) (msmulQ eps mId))).sqAbs ≠ 0 →
      mtrace (c4vSymShiftNorm eps M) = (⟨1, 0⟩ : CQ)) := by
  constructor
  · intro ι _ _ spd U d M hr
    unfold symPosDefMatrix
    rw [mtrace_mdivQ]
    have him := spdSelect_trace_im spd U d M
    have hre : castToRealNoFail (mtrace (spdSelect spd U d M)) =
        (mtrace (spdSelect spd U d M)).re := rfl
    rw [hre] at hr
    rw [CQ.ext_iff2]
    simp only [CQ.divQ_def, him]
    unfold castToRealNoFail
    constructor
    · exact div_self hr
    · simp
  · intro ι _ _ eps M h
    unfold c4vSymShiftNorm
    rw [mtrace_mdivC]
    rw [CQ.div_self_one _ h]
    rfl

/-- C2, witness for the amended theorem: both normalization statements
instantiated on concrete one-dimensional matrices. -/
theorem rdm_trace_normalization_witness :
    (castToRealNoFail (mtrace (spdSelect false (fun _ _ => 0) (fun _ => 0)
      (fun _ _ => (⟨2, 0⟩ : CQ) : MatI (Fin 1)))) ≠ 0 ∧
      mtrace (symPosDefMatrix false (fun _ _ => 0) (fun _ => 0)
        (fun _ _ => (⟨2, 0⟩ : CQ) : MatI (Fin 1))) = (⟨1, 0⟩ : CQ)) ∧
    ((mtrace (madd (symHalfT (fun _ _ => (⟨2, 0⟩ : CQ) : MatI (Fin 1)))
        (msmulQ 3 mId))).sqAbs ≠ 0 ∧
      mtrace (c4vSymShiftNorm 3 (fun _ _ => (⟨2, 0⟩ : CQ) : MatI (Fin 1))) = (⟨1, 0⟩ : CQ)) := by
  have h1 : castToRealNoFail (mtrace (spdSelect false (fun _ _ => 0) (fun _ => 0)
      (fun _ _ => (⟨2, 0⟩ : CQ) : MatI (Fin 1)))) ≠ 0 := by
    show (mtrace (spdSelect false (fun _ _ => 0) (fun _ => 0)
      (fun _ _ => (⟨2, 0⟩ : CQ) : MatI (Fin 1)))).re ≠ 0
    have hv : mtrace (spdSelect false (fun _ _ => 0) (fun _ => 0)
        (fun _ _ => (⟨2, 0⟩ : CQ) : MatI (Fin 1))) = (⟨2, 0⟩ : CQ) := by
      simp [mtrace, spdSelect, hasNegEntry, symHalfH, msmulQ, madd, mH, Fin.sum_univ_one,
        CQ.conj_def, CQ.mul_def, CQ.add_def, CQ.ofQ_def, CQ.ext_iff2]
      norm_num
    rw [hv]
    norm_num
  have h2 : (mtrace (madd (symHalfT (fun _ _ => (⟨2, 0⟩ : CQ) : MatI (Fin 1)))
      (msmulQ 3 mId))).sqAbs ≠ 0 := by
    have hv : mtrace (madd (symHalfT (fun _ _ => (⟨2, 0⟩ : CQ) : MatI (Fin 1)))
        (msmulQ 3 mId)) = (⟨5, 0⟩ : CQ) := by
      simp [mtrace, symHalfT, msmulQ, madd, mT, mId, Fin.sum_univ_one, CQ.mul_def,
        CQ.add_def, CQ.one_def, CQ.ofQ_def, CQ.ext_iff2]
      norm_num
    rw [hv]
    show (5 : ℚ) * 5 + 0 * 0 ≠ 0
    norm_num
  exact ⟨⟨h1, rdm_trace_normalization.1 (Fin 1) inferInstance inferInstance false _ _ _ h1⟩,
    ⟨h2, rdm_trace_normalization.2 (Fin 1) inferInstance inferInstance 3 _ h2⟩⟩

/-- Environment leg conventions of the generic CTM (src/ctm/generic/rdm.py
diagrams): a corner is a `chi x chi` matrix; an edge tensor T carries two
`chi` legs and one fused auxiliary leg of dimension `D*D`, typed here as
`Fin D × Fin D` (ket and bra layer).  Leg orders per direction:
`T(-1,0) : (up, down, aux)`, `T(0,1) : (aux, left, right)`,
`T(0,-1) : (left, aux, right)`, `T(1,0) : (up, aux, down)`. -/
abbrev AuxPair (D : ℕ) := Fin D × Fin D

/-- `CTC_LD = torch.tensordot(C1, T4, ([0],[0]))` (src/ctm/generic/rdm.py
line 1020): contract the lower leg of the upper-left corner with the upper
leg of the left edge. -/
def ctctLD1 {χ D : ℕ} (C1 : Fin χ → Fin χ → CQ) (T4 : Fin χ → Fin χ → AuxPair D → CQ) :
    Fin χ → Fin χ → AuxPair D → CQ :=
  fun r j k => ∑ z, C1 z r * T4 z j k

/-- `CTC_LD = torch.tensordot(CTC_LD, C4, ([1],[0]))` (line 1027). -/
def ctctLD2 {χ D : ℕ} (LD : Fin χ → Fin χ → AuxPair D → CQ) (C4 : Fin χ → Fin χ → CQ) :
    Fin χ → AuxPair D → Fin χ → CQ :=
  fun r k j => ∑ z, LD r z k * C4 z j

/-- `CTC_LD = torch.tensordot(CTC_LD, T3, ([2],[1]))` (line 1034); resulting
legs: (top chi, left aux, bottom aux, right chi). -/
def ctctLD3 {χ D : ℕ} (LD : Fin χ → AuxPair D → Fin χ → CQ)
    (T3 : AuxPair D → Fin χ → Fin χ → CQ) : Fin χ → AuxPair D → AuxPair D → Fin χ → CQ :=
  fun r k m j => ∑ z, LD r k z * T3 m z j

/-- Composition `_CTCT_LD` (src/ctm/generic/rdm.py lines 1013-1035). -/
def ctctLD {χ D : ℕ} (C1 : Fin χ → Fin χ → CQ) (T4 : Fin χ → Fin χ → AuxPair D → CQ)
    (C4 : Fin χ → Fin χ → CQ) (T3 : AuxPair D → Fin χ → Fin χ → CQ) :
    Fin χ → AuxPair D → AuxPair D → Fin χ → CQ :=
  ctctLD3 (ctctLD2 (ctctLD1 C1 T4) C4) T3

/-- `CTC_RU = torch.tensordot(T2, C3, ([2],[0]))` (line 1055). -/
def ctctRU1 {χ D : ℕ} (T2 : Fin χ → AuxPair D → Fin χ → CQ) (C3 : Fin χ → Fin χ → CQ) :
    Fin χ → AuxPair D → Fin χ → CQ :=
  fun u k l => ∑ z, T2 u k z * C3 z l

/-- `CTC_RU = torch.tensordot(C2, CTC_RU, ([1],[0]))` (line 1062). -/
def ctctRU2 {χ D : ℕ} (C2 : Fin χ → Fin χ → CQ) (RU : Fin χ → AuxPair D → Fin χ → CQ) :
    Fin χ → AuxPair D → Fin χ → CQ :=
  fun x k l => ∑ z, C2 x z * RU z k l

/-- `CTC_RU = torch.tensordot(T1, CTC_RU, ([2],[0]))` (line 1068); resulting
legs: (left chi, top aux, right aux, bottom chi). -/
def ctctRU3 {χ D : ℕ} (T1 : Fin χ → AuxPair D → Fin χ → CQ)
    (RU : Fin χ → AuxPair D → Fin χ → CQ) :
    Fin χ → AuxPair D → AuxPair D → Fin χ → CQ :=
  fun x k k2 l => ∑ z, T1 x k z * RU z k2 l

/-- Composition `_CTCT_RU` (src/ctm/generic/rdm.py lines 1048-1069). -/
def ctctRU {χ D : ℕ} (T1 : Fin χ → AuxPair D → Fin χ → CQ)
    (T2 : Fin χ → AuxPair D → Fin χ → CQ) (C2 : Fin χ → Fin χ → CQ)
    (C3 : Fin χ → Fin χ → CQ) : Fin χ → AuxPair D → AuxPair D → Fin χ → CQ :=
  ctctRU3 T1 (ctctRU2 C2 (ctctRU1 T2 C3))

/-- Embedding of `aux_rdm1x1` (src/ctm/generic/rdm.py lines 1082-1130):
contract the two `CTCT` halves over their chi legs (line 1115), permute the
four open auxiliary legs into (top, left, bottom, right) (line 1116), unfuse
each `D*D` leg into (ket, bra) and split bra from ket (lines 1127-1128).  The
result is presented as a matrix over the four ket legs times the four bra
legs; the source applies no symmetrization and no trace normalization before
returning it. -/
def auxRdm1x1 {χ D : ℕ} (C1 C2 C3 C4 : Fin χ → Fin χ → CQ)
    (T1 T2 : Fin χ → AuxPair D → Fin χ → CQ) (T3 : AuxPair D → Fin χ → Fin χ → CQ)
    (T4 : Fin χ → Fin χ → AuxPair D → CQ) :
    MatI (Fin D × Fin D × Fin D × Fin D) :=
  fun ket bra =>
    ∑ z1, ∑ z2, ctctLD C1 T4 C4 T3 z1 (ket.2.1, bra.2.1) (ket.2.2.1, bra.2.2.1) z2 *
      ctctRU T1 T2 C2 C3 z1 (ket.1, bra.1) (ket.2.2.2, bra.2.2.2) z2

/-- All-twos environment for a 1x1 patch with `chi = 1`, `D = 1`. -/
def twoC : Fin 1 → Fin 1 → CQ := fun _ _ => ⟨2, 0⟩

def twoT : Fin 1 → AuxPair 1 → Fin 1 → CQ := fun _ _ _ => ⟨2, 0⟩

def twoT3 : AuxPair 1 → Fin 1 → Fin 1 → CQ := fun _ _ _ => ⟨2, 0⟩

def twoT4 : Fin 1 → Fin 1 → AuxPair 1 → CQ := fun _ _ _ => ⟨2, 0⟩

/-- C2, counterexample: on the all-twos environment the tensor returned by
`aux_rdm1x1` has trace `256`, not `1`: the `aux_*` routines skip the
symmetrize-and-normalize post-processing entirely. -/
theorem aux_rdm1x1_trace_not_one :
    mtrace (auxRdm1x1 twoC twoC twoC twoC twoT twoT twoT3 twoT4) = (⟨256, 0⟩ : CQ) ∧
    mtrace (auxRdm1x1 twoC twoC twoC twoC twoT twoT twoT3 twoT4) ≠ (⟨1, 0⟩ : CQ) := by
  have h : mtrace (auxRdm1x1 twoC twoC twoC twoC twoT twoT twoT3 twoT4) = (⟨256, 0⟩ : CQ) := by
    simp [mtrace, auxRdm1x1, ctctLD, ctctLD1, ctctLD2, ctctLD3, ctctRU, ctctRU1, ctctRU2,
      ctctRU3, twoC, twoT, twoT3, twoT4, Fintype.sum_prod_type, Fin.sum_univ_one,
      CQ.mul_def, CQ.add_def, CQ.ext_iff2]
    norm_num
  refine ⟨h, ?_⟩
  rw [h]
  intro hc
  have := congrArg CQ.re hc
  norm_num at this

/-- Distance between the last two entries of a history list,
`abs(history[-1] - history[-2])`. -/
def lastDiff (l : List ℚ) : ℚ := |l.getLastD 0 - l.dropLast.getLastD 0|

/-- Embedding of `ctmrg_conv_energy` of src/optim_j1j2.py (lines 68-75): the
history is appended in place and the check returns True exactly when the
appended history has length above one and the difference of its last two
entries is below `ctm_conv_tol`.  No `ctm_max_iter` test appears in this
functional. -/
def convEnergyJ1J2 (tol : ℚ) (eCurr : ℚ) (history : List ℚ) : Bool × List ℚ :=
  let h := history ++ [eCurr]
  (decide (1 < h.length) && decide (lastDiff h < tol), h)

/-- Embedding of `ctmrg_conv_energy` of src/SU3_CSL_ipeps/SU3_CSL_ctmrg.py
(lines 66-87) and of the `Energy` variant of `ctmrg_conv_f` of
src/examples/abelian/optim_kagome_spin_half_u1.py (lines 300-310), which share
the same logic: tolerance test on the last two entries, or history length
reaching `ctm_max_iter`. -/
def convEnergySU3 (tol : ℚ) (maxIter : ℕ) (eCurr : ℚ) (history : Option (List ℚ)) :
    Bool × List ℚ :=
  let h := history.getD [] ++ [eCurr]
  ((decide (1 < h.length) && decide (lastDiff h < tol)) || decide (maxIter ≤ h.length), h)

/-- Embedding of the `Partial_energy` variant of `ctmrg_conv_f`
(src/examples/abelian/optim_kagome_spin_half_u1.py lines 311-325): for the
first eight sweeps a counter is appended instead of an energy, and the
threshold compared against is `ctm_conv_tol * 2`, not `ctm_conv_tol`. -/
def convPartialEnergy (tol : ℚ) (maxIter : ℕ) (eCurr : ℚ) (history : Option (List ℚ)) :
    Bool × List ℚ :=
  let h0 := history.getD []
  let h := if 8 < h0.length then h0 ++ [eCurr] else h0 ++ [((h0.length : ℚ) + 1)]
  ((decide (1 < h.length) && decide (lastDiff h < tol * 2)) || decide (maxIter ≤ h.length), h)

/-- C5, amended: the SU3 and kagome-`Energy` functionals return True exactly
when the appended history has the last-two distance below `ctm_conv_tol` or
length at least `ctm_max_iter`; but `optim_j1j2.ctmrg_conv_energy` omits the
`ctm_max_iter` ceiling entirely, and the kagome `Partial_energy` variant
compares against `2 * ctm_conv_tol` (its `SingularValue` sibling uses
`100 * ctm_conv_tol`). -/
theorem ctmrg_conv_characterization :
    (∀ (tol e : ℚ) (hist : List ℚ),
      (convEnergyJ1J2 tol e hist).2 = hist ++ [e] ∧
      ((convEnergyJ1J2 tol e hist).1 = true ↔
        1 < (hist ++ [e]).length ∧ lastDiff (hist ++ [e]) < tol)) ∧
    (∀ (tol e : ℚ) (maxIter : ℕ) (hist : Option (List ℚ)),
      (convEnergySU3 tol maxIter e hist).2 = hist.getD [] ++ [e] ∧
      ((convEnergySU3 tol maxIter e hist).1 = true ↔
        (1 < (hist.getD [] ++ [e]).length ∧ lastDiff (hist.getD [] ++ [e]) < tol) ∨
          maxIter ≤ (hist.getD [] ++ [e]).length)) ∧
    (∀ (tol e : ℚ) (maxIter : ℕ) (hist : Option (List ℚ)),
      ((convPartialEnergy tol maxIter e hist).1 = true ↔
        (1 < ((convPartialEnergy tol maxIter e hist).2).length ∧
          lastDiff ((convPartialEnergy tol maxIter e hist).2) < tol * 2) ∨
          maxIter ≤ ((convPartialEnergy tol maxIter e hist).2).length)) := by
  refine ⟨fun tol e hist => ⟨rfl, ?_⟩, fun tol e maxIter hist => ⟨rfl, ?_⟩,
    fun tol e maxIter hist => ?_⟩
  · simp [convEnergyJ1J2]
  · simp [convEnergySU3]
  · simp [convPartialEnergy]

/-- C5, counterexample: with `ctm_conv_tol = 1`, on history `[0]` and sweep
energy `5` the j1j2 functional returns False although the appended history
has length 2, which reaches a `ctm_max_iter` of 2 (the functional tests no
iteration ceiling at all); and with `ctm_max_iter = 100` the
`Partial_energy` functional returns True on a step whose last-two distance
is `1`, which is not below `ctm_conv_tol = 1` (it is below `2 * 1`). -/
theorem ctmrg_conv_deviations :
    convEnergyJ1J2 1 5 [0] = (false, [0, 5]) ∧
    (convPartialEnergy 1 100 0 (some [1])).1 = true ∧
    lastDiff (convPartialEnergy 1 100 0 (some [1])).2 = 1 ∧
    ¬ lastDiff (convPartialEnergy 1 100 0 (some [1])).2 < 1 := by
  have hd : lastDiff [(0 : ℚ), 5] = 5 := by
    simp [lastDiff]
  have hp2 : (convPartialEnergy 1 100 0 (some [1])).2 = [1, 2] := by
    simp [convPartialEnergy]
    norm_num
  have hpd : lastDiff [(1 : ℚ), 2] = 1 := by
    simp [lastDiff]
    norm_num
  refine ⟨?_, ?_, ?_, ?_⟩
  · have hfst : (convEnergyJ1J2 1 5 [0]).1 = false := by
      simp [convEnergyJ1J2, hd]
    have hsnd : (convEnergyJ1J2 1 5 [0]).2 = [0, 5] := rfl
    rw [Prod.ext_iff]
    exact ⟨hfst, hsnd⟩
  · simp [convPartialEnergy, lastDiff]
  · rw [hp2, hpd]
  · rw [hp2, hpd]
    norm_num

/-- Maximum of a list of rationals with a starting value (`torch.max` on the
four-entry error tensor). -/
def listMaxD (d : ℚ) (l : List ℚ) : ℚ := l.foldl max d

/-- Normalization of a corner spectrum by its leading value
(`spec_new / spec_new[0]`). -/
def normalizeSpec (l : List ℚ) : List ℚ := l.map (fun x => x / l.headD 1)

/-- Embedding of the `SingularValue` variant of `ctmrg_conv_f`
(src/examples/abelian/optim_kagome_spin_half_u1.py lines 326-356).  The
history is a pair of an iteration counter and the list of four stored corner
spectra.  The local `spec_ers` is assigned only inside the
`len(history[1])==4` branch, modeled by an `Option`; the `and` of the
convergence test short-circuits, so the condition itself never reads an
unassigned `spec_ers`, but the `log.info` call inside the taken branch does
read it, which Python reports as an `UnboundLocalError`.  The distance
functional (`torch.linalg.norm` of the spectrum difference) is the external
backend's; it enters as the argument `dist`. -/
def pySingularValueConv (tol : ℚ) (maxIter : ℕ) (dist : List ℚ → List ℚ → ℚ)
    (history : Option (ℕ × List (List ℚ))) (spectraNew : List (List ℚ)) :
    Except String (Bool × (ℕ × List (List ℚ))) :=
  let hp := history.getD (1, [])
  let normed := spectraNew.map normalizeSpec
  let specErs : Option (List ℚ) :=
    if hp.2.length = 4 then some (List.zipWith dist normed hp.2) else none
  let cond1 : Bool :=
    match specErs with
    | some ers => decide (hp.2.length = 4) && decide (listMaxD 0 ers < tol * 100)
    | none => false
  if cond1 || decide (maxIter ≤ hp.1) then
    match specErs with
    | none => Except.error "UnboundLocalError: local variable spec_ers referenced before assignment"
    | some _ => Except.ok (true, hp)
  else Except.ok (false, (hp.1 + 1, normed))

/-- A concrete stand-in for the backend norm distance. -/
def distZero : List ℚ → List ℚ → ℚ := fun _ _ => 0

/-- C9: on the very first invocation (history `None`, so the stored spectrum
list is empty) with `ctm_max_iter = 1`, the iteration counter (initialized to
1) already reaches the ceiling while `len(history[1]) != 4`, and the check
aborts with the unbound-variable error on `spec_ers` instead of returning a
result. -/
theorem singular_value_check_unbound_local :
    pySingularValueConv 1 1 distZero none [[1], [1], [1], [1]] =
      Except.error "UnboundLocalError: local variable spec_ers referenced before assignment" := by
  rfl

/-- Error kinds raised by environment initialization: `NotImplementedError`
for the placeholder methods, `ValueError` with a message for unknown
methods. -/
inductive PyErr where
  | notImplemented : PyErr
  | valueError : String → PyErr
  deriving DecidableEq, Repr

/-- The one action that populates the environment: `init_from_ipeps_pbc`,
reached through the `CTMRG` method. -/
inductive InitOutcome where
  | populatedFromIpepsPbc : InitOutcome
  deriving DecidableEq, Repr

/-- Method resolution `if not init_method: init_method = ctm_args.ctm_env_init_type`:
`None` and the empty string are both falsy in Python. -/
def resolveInitMethod (initMethod : Option String) (ctmArgsType : String) : String :=
  match initMethod with
  | none => ctmArgsType
  | some s => if s = "" then ctmArgsType else s

/-- Embedding of `init_env` of src/ctm/generic_abelian/env_abelian.py
(lines 305-335): `CONST` and `RANDOM` dispatch to `init_const`/`init_random`,
whose bodies are `raise NotImplementedError` (lines 337-350); `CTMRG`
dispatches to `init_from_ipeps_pbc`, the only branch that populates the
environment; `CTMRG_OBC` dispatches to `init_from_ipeps_obc`, whose body is
`raise NotImplementedError` (lines 557-558); any other string raises
`ValueError` naming the resolved method. -/
def initEnvAbelian (initMethod : Option String) (ctmArgsType : String) :
    Except PyErr InitOutcome :=
  let m := resolveInitMethod initMethod ctmArgsType
  if m = "CONST" then Except.error PyErr.notImplemented
  else if m = "RANDOM" then Except.error PyErr.notImplemented
  else if m = "CTMRG" then Except.ok InitOutcome.populatedFromIpepsPbc
  else if m = "CTMRG_OBC" then Except.error PyErr.notImplemented
  else Except.error (PyErr.valueError ("Invalid environment initialization: " ++ m))

/-- Embedding of `init_env` of src/ctm/one_site_c4v_abelian/env_c4v_abelian.py
(lines 152-196): identical dispatch; its ValueError message names
`ctm_args.ctm_env_init_type` rather than the resolved method (line 180). -/
def initEnvC4vAbelian (initMethod : Option String) (ctmArgsType : String) :
    Except PyErr InitOutcome :=
  let m := resolveInitMethod initMethod ctmArgsType
  if m = "CONST" then Except.error PyErr.notImplemented
  else if m = "RANDOM" then Except.error PyErr.notImplemented
  else if m = "CTMRG" then Except.ok InitOutcome.populatedFromIpepsPbc
  else if m = "CTMRG_OBC" then Except.error PyErr.notImplemented
  else Except.error (PyErr.valueError ("Invalid environment initialization: " ++ ctmArgsType))

/-- C6: in both abelian environment modules, the methods `CONST`, `RANDOM`
and `CTMRG_OBC` always fail with `NotImplementedError`; any method string
other than these and `CTMRG` raises `ValueError`; and `CTMRG` is the single
method that populates the environment. -/
theorem init_env_method_dispatch (initMethod : Option String) (ctmArgsType : String) :
    (∀ m, m = resolveInitMethod initMethod ctmArgsType →
      (m = "CONST" ∨ m = "RANDOM" ∨ m = "CTMRG_OBC") →
      initEnvAbelian initMethod ctmArgsType = Except.error PyErr.notImplemented ∧
      initEnvC4vAbelian initMethod ctmArgsType = Except.error PyErr.notImplemented) ∧
    (resolveInitMethod initMethod ctmArgsType = "CTMRG" →
      initEnvAbelian initMethod ctmArgsType = Except.ok InitOutcome.populatedFromIpepsPbc ∧
      initEnvC4vAbelian initMethod ctmArgsType = Except.ok InitOutcome.populatedFromIpepsPbc) ∧
    (resolveInitMethod initMethod ctmArgsType ∉
        (["CONST", "RANDOM", "CTMRG", "CTMRG_OBC"] : List String) →
      initEnvAbelian initMethod ctmArgsType = Except.error (PyErr.valueError
        ("Invalid environment initialization: " ++ resolveInitMethod initMethod ctmArgsType)) ∧
      initEnvC4vAbelian initMethod ctmArgsType = Except.error (PyErr.valueError
        ("Invalid environment initialization: " ++ ctmArgsType))) := by
  refine ⟨?_, ?_, ?_⟩
  · rintro m rfl (hm | hm | hm) <;>
      simp [initEnvAbelian, initEnvC4vAbelian, hm]
  · intro hm
    simp [initEnvAbelian, initEnvC4vAbelian, hm]
  · intro hm
    simp only [List.mem_cons, List.not_mem_nil, or_false, not_or] at hm
    obtain ⟨h1, h2, h3, h4⟩ := hm
    simp [initEnvAbelian, initEnvC4vAbelian, h1, h2, h3, h4]

/-- C6, witness: the dispatch theorem applied to each concrete method. -/
theorem init_env_method_dispatch_witness :
    initEnvAbelian (some "CONST") "CTMRG" = Except.error PyErr.notImplemented ∧
    initEnvAbelian (some "CTMRG") "CTMRG" = Except.ok InitOutcome.populatedFromIpepsPbc ∧
    initEnvAbelian (some "FOO") "FOO" =
      Except.error (PyErr.valueError "Invalid environment initialization: FOO") := by
  refine ⟨((init_env_method_dispatch (some "CONST") "CTMRG").1 "CONST" rfl
    (Or.inl rfl)).1, ((init_env_method_dispatch (some "CTMRG") "CTMRG").2.1 rfl).1, ?_⟩
  have h := ((init_env_method_dispatch (some "FOO") "FOO").2.2 (by decide)).1
  exact h

/-- Python tuple comparison (lexicographic `<=`) on dense-size pairs. -/
def lexLe (a b : ℕ × ℕ) : Bool :=
  decide (a.1 < b.1) || (decide (a.1 = b.1) && decide (a.2 ≤ b.2))

/-- Python `max` over a list of size tuples: the lexicographically greatest
tuple.  `torch.Size` values compare as tuples. -/
def pyMaxPair (l : List (ℕ × ℕ)) : ℕ × ℕ :=
  l.foldl (fun acc p => if lexLe acc p then p else acc) (0, 0)

/-- Embedding of `max_chi = max(self.chi, max(max([c.size() for c in
C_torch.values()])))` of `ENV_ABELIAN.to_dense`
(src/ctm/generic_abelian/env_abelian.py line 245): the inner `max` picks the
lexicographically greatest size tuple, the outer `max` its larger entry. -/
def toDenseMaxChi (chi : ℕ) (sizes : List (ℕ × ℕ)) : ℕ :=
  max chi (max (pyMaxPair sizes).1 (pyMaxPair sizes).2)

/-- Spec-side reading of the same quantity (modelled from the claim's words):
the maximum of the original `chi` and the largest dense dimension appearing
in any corner size. -/
def claimedMaxChi (chi : ℕ) (sizes : List (ℕ × ℕ)) : ℕ :=
  max chi ((sizes.map fun p => max p.1 p.2).foldl max 0)

/-- Padding of a dense corner block into the `max_chi x max_chi` zero matrix,
`env_torch.C[cid][:c.size(0), :c.size(1)] = c`
(src/ctm/generic_abelian/env_abelian.py lines 254-255). -/
def padCorner (n r s : ℕ) (c : ℕ → ℕ → CQ) : Fin n → Fin n → CQ :=
  fun i j => if i.val < r ∧ j.val < s then c i.val j.val else 0

theorem pyMaxPair_squares_aux (l : List (ℕ × ℕ)) :
    ∀ x : ℕ, (∀ p ∈ l, p.1 = p.2) →
      l.foldl (fun acc p => if lexLe acc p then p else acc) (x, x) =
        (l.foldl (fun m p => max m p.1) x, l.foldl (fun m p => max m p.1) x) := by
  induction l with
  | nil => intro x _; rfl
  | cons p t ih =>
    intro x hsq
    obtain ⟨p1, p2⟩ := p
    have hp : p1 = p2 := hsq (p1, p2) (List.mem_cons_self _ _)
    subst hp
    have hstep : (if lexLe (x, x) (p1, p1) then (p1, p1) else (x, x)) =
        (max x p1, max x p1) := by
      unfold lexLe
      by_cases hle : x ≤ p1
      · rcases lt_or_eq_of_le hle with hlt | heq
        · simp [hlt, max_eq_right hle]
        · subst heq
          simp
      · push_neg at hle
        have h1 : ¬ x < p1 := by omega
        have h2 : ¬ x = p1 := by omega
        simp [h1, h2, max_eq_left (le_of_lt hle)]
    simp only [List.foldl_cons, hstep]
    exact ih (max x p1) fun q hq => hsq q (List.mem_cons_of_mem _ hq)

theorem foldl_max_squares_aux (l : List (ℕ × ℕ)) :
    ∀ x : ℕ, (∀ p ∈ l, p.1 = p.2) →
      l.foldl (fun m p => max m (max p.1 p.2)) x = l.foldl (fun m p => max m p.1) x := by
  induction l with
  | nil => intro x _; rfl
  | cons p t ih =>
    intro x hsq
    obtain ⟨p1, p2⟩ := p
    have hp : p1 = p2 := hsq (p1, p2) (List.mem_cons_self _ _)
    subst hp
    simp only [List.foldl_cons, max_self]
    exact ih (max x p1) fun q hq => hsq q (List.mem_cons_of_mem _ hq)

/-- C8, amended (first part): when every corner has equal dense dimensions on
its two legs (in particular for square corners), the `max_chi` the code
computes coincides with the claimed maximum over all dense dimensions. -/
theorem toDenseMaxChi_eq_claimed_of_squares (chi : ℕ) (sizes : List (ℕ × ℕ))
    (hsq : ∀ p ∈ sizes, p.1 = p.2) : toDenseMaxChi chi sizes = claimedMaxChi chi sizes := by
  unfold toDenseMaxChi claimedMaxChi pyMaxPair
  rw [pyMaxPair_squares_aux sizes 0 hsq]
  rw [List.foldl_map]
  rw [foldl_max_squares_aux sizes 0 hsq]
  rw [max_self]

/-- C8, amended: `to_dense` computes its dense bond dimension as the larger
entry of the lexicographically greatest corner-size tuple (capped below by
`chi`), which equals the claimed maximum over all corner dense dimensions
whenever all corners have equal leg dimensions; and each dense corner holds
the block in its leading sub-block with zeros outside, so the densification
is lossless exactly when every corner dimension fits below the computed
`max_chi`. -/
theorem to_dense_densification :
    (∀ (chi : ℕ) (sizes : List (ℕ × ℕ)), (∀ p ∈ sizes, p.1 = p.2) →
      toDenseMaxChi chi sizes = claimedMaxChi chi sizes) ∧
    (∀ (n r s : ℕ) (c : ℕ → ℕ → CQ) (i j : Fin n),
      (i.val < r → j.val < s → padCorner n r s c i j = c i.val j.val) ∧
      (¬ (i.val < r ∧ j.val < s) → padCorner n r s c i j = 0)) := by
  constructor
  · exact toDenseMaxChi_eq_claimed_of_squares
  · intro n r s c i j
    constructor
    · intro hi hj
      simp [padCorner, hi, hj]
    · intro hout
      simp only [padCorner, if_neg hout]

/-- C8, counterexample: on corner sizes `[(3,1), (2,5)]` with `chi = 1` the
code computes `max_chi = 3` (the lexicographically greatest tuple is `(3,1)`
and its larger entry is 3), while the largest dense dimension of any corner
is 5: the claimed formula gives 5, and a corner of size `(2,5)` cannot be
embedded in a `3 x 3` dense corner, so the densification is not lossless. -/
theorem to_dense_max_chi_cex :
    toDenseMaxChi 1 [(3, 1), (2, 5)] = 3 ∧
    claimedMaxChi 1 [(3, 1), (2, 5)] = 5 ∧
    toDenseMaxChi 1 [(3, 1), (2, 5)] ≠ claimedMaxChi 1 [(3, 1), (2, 5)] := by
  refine ⟨by decide, by decide, by decide⟩

/-- C8, witness for the amended theorem at concrete square sizes. -/
theorem to_dense_densification_witness :
    toDenseMaxChi 2 [(3, 3), (4, 4)] = claimedMaxChi 2 [(3, 3), (4, 4)] ∧
    toDenseMaxChi 2 [(3, 3), (4, 4)] = 4 :=
  ⟨to_dense_densification.1 2 [(3, 3), (4, 4)] (by decide), by decide⟩

/-- On-site iPEPS tensor with legs (physical, up, left, down, right), the
shape contract of the environment initializer. -/
abbrev SiteT (d D : ℕ) := Fin d → Fin D → Fin D → Fin D → Fin D → CQ

/-- Rank-3 tensor with three fused auxiliary legs, the shape of an initial
edge tensor. -/
abbrev Edge3 (D : ℕ) := AuxPair D → AuxPair D → AuxPair D → CQ

/-- `A.tensordot(A, ((0,1,2),(0,1,2)), conj=(0,1))` of the upper-left corner
(src/ctm/generic_abelian/env_abelian.py line 375): contract physical, up and
left legs against the conjugate layer; remaining legs (down, right) of the
ket and bra layers in the order `efab`. -/
def cornerDotLU {d D : ℕ} (A : SiteT d D) : Fin D → Fin D → Fin D → Fin D → CQ :=
  fun e f a b => ∑ m, ∑ i, ∑ j, A m i j e f * (A m i j a b).conj

/-- `a.transpose((0,2,1,3))` (line 376): `efab -> eafb`. -/
def transpose0213 {D : ℕ} (t : Fin D → Fin D → Fin D → Fin D → CQ) :
    Fin D → Fin D → Fin D → Fin D → CQ :=
  fun e a f b => t e f a b

/-- `a.fuse_legs(axes=((0,1),(2,3)))` (line 380): each doubled leg pair
becomes one fused leg. -/
def fusePairs2 {D : ℕ} (t : Fin D → Fin D → Fin D → Fin D → CQ) : MatI (AuxPair D) :=
  fun p q => t p.1 p.2 q.1 q.2

/-- The upper-left initial corner before normalization, as the code builds it
(src/ctm/generic_abelian/env_abelian.py lines 372-380). -/
def cornerLUCode {d D : ℕ} (A : SiteT d D) : MatI (AuxPair D) :=
  fusePairs2 (transpose0213 (cornerDotLU A))

/-- Modelled from the spec: the upper-left corner is the double-layer
contraction of the on-site tensor with its own conjugate over the three legs
(physical, up, left) not adjacent to that corner's environment-facing
directions (down, right), with the two doubled leg pairs fused. -/
def cornerLUSpec {d D : ℕ} (A : SiteT d D) : MatI (AuxPair D) :=
  fun dp rp => ∑ m, ∑ i, ∑ j, A m i j dp.1 rp.1 * (A m i j dp.2 rp.2).conj

/-- Upper-right corner contraction `((0,1,4),(0,1,4))` (line 399): remaining
legs (left, down). -/
def cornerDotRU {d D : ℕ} (A : SiteT d D) : Fin D → Fin D → Fin D → Fin D → CQ :=
  fun e f a b => ∑ m, ∑ i, ∑ j, A m i e f j * (A m i a b j).conj

def cornerRUCode {d D : ℕ} (A : SiteT d D) : MatI (AuxPair D) :=
  fusePairs2 (transpose0213 (cornerDotRU A))

/-- Modelled from the spec: contraction over (physical, up, right) for the
corner facing (down, left). -/
def cornerRUSpec {d D : ℕ} (A : SiteT d D) : MatI (AuxPair D) :=
  fun lp dp => ∑ m, ∑ i, ∑ j, A m i lp.1 dp.1 j * (A m i lp.2 dp.2 j).conj

/-- Lower-right corner contraction `((0,3,4),(0,3,4))` (line 422): remaining
legs (up, left). -/
def cornerDotRD {d D : ℕ} (A : SiteT d D) : Fin D → Fin D → Fin D → Fin D → CQ :=
  fun e f a b => ∑ m, ∑ i, ∑ j, A m e f i j * (A m a b i j).conj

def cornerRDCode {d D : ℕ} (A : SiteT d D) : MatI (AuxPair D) :=
  fusePairs2 (transpose0213 (cornerDotRD A))

/-- Modelled from the spec: contraction over (physical, down, right) for the
corner facing (up, left). -/
def cornerRDSpec {d D : ℕ} (A : SiteT d D) : MatI (AuxPair D) :=
  fun up lp => ∑ m, ∑ i, ∑ j, A m up.1 lp.1 i j * (A m up.2 lp.2 i j).conj

/-- Lower-left corner contraction `((0,2,3),(0,2,3))` (line 445): remaining
legs (up, right). -/
def cornerDotLD {d D : ℕ} (A : SiteT d D) : Fin D → Fin D → Fin D → Fin D → CQ :=
  fun e f a b => ∑ m, ∑ i, ∑ j, A m e i j f * (A m a i j b).conj

def cornerLDCode {d D : ℕ} (A : SiteT d D) : MatI (AuxPair D) :=
  fusePairs2 (transpose0213 (cornerDotLD A))

/-- Modelled from the spec: contraction over (physical, left, down) for the
corner facing (up, right). -/
def cornerLDSpec {d D : ℕ} (A : SiteT d D) : MatI (AuxPair D) :=
  fun up rp => ∑ m, ∑ i, ∑ j, A m up.1 i j rp.1 * (A m up.2 i j rp.2).conj

/-- Edge contraction for the upper transfer tensor, `((0,1),(0,1))`
(line 470): remaining legs (left, down, right) of both layers, `efgabc`. -/
def edgeDotUp {d D : ℕ} (A : SiteT d D) :
    Fin D → Fin D → Fin D → Fin D → Fin D → Fin D → CQ :=
  fun e f g a b c => ∑ m, ∑ i, A m i e f g * (A m i a b c).conj

/-- `a.transpose((0,3,1,4,2,5))` (line 471): `efgabc -> eafbgc`. -/
def transpose031425 {D : ℕ} (t : Fin D → Fin D → Fin D → Fin D → Fin D → Fin D → CQ) :
    Fin D → Fin D → Fin D → Fin D → Fin D → Fin D → CQ :=
  fun e a f b g c => t e f g a b c

/-- `a.fuse_legs(axes=((0,1),(2,3),(4,5)))` (line 475). -/
def fusePairs3 {D : ℕ} (t : Fin D → Fin D → Fin D → Fin D → Fin D → Fin D → CQ) :
    Edge3 D :=
  fun p q r => t p.1 p.2 q.1 q.2 r.1 r.2

def edgeUpCode {d D : ℕ} (A : SiteT d D) : Edge3 D :=
  fusePairs3 (transpose031425 (edgeDotUp A))

/-- Modelled from the spec: the upper edge is the double-layer contraction
over the two legs (physical, up) not adjacent to its direction, leaving the
doubled (left, down, right) legs fused pairwise. -/
def edgeUpSpec {d D : ℕ} (A : SiteT d D) : Edge3 D :=
  fun lp dp rp => ∑ m, ∑ i, A m i lp.1 dp.1 rp.1 * (A m i lp.2 dp.2 rp.2).conj

/-- Left edge contraction `((0,2),(0,2))` (line 494): remaining
(up, down, right). -/
def edgeDotLeft {d D : ℕ} (A : SiteT d D) :
    Fin D → Fin D → Fin D → Fin D → Fin D → Fin D → CQ :=
  fun e f g a b c => ∑ m, ∑ i, A m e i f g * (A m a i b c).conj

def edgeLeftCode {d D : ℕ} (A : SiteT d D) : Edge3 D :=
  fusePairs3 (transpose031425 (edgeDotLeft A))

def edgeLeftSpec {d D : ℕ} (A : SiteT d D) : Edge3 D :=
  fun up dp rp => ∑ m, ∑ i, A m up.1 i dp.1 rp.1 * (A m up.2 i dp.2 rp.2).conj

/-- Bottom edge contraction `((0,3),(0,3))` (line 519): remaining
(up, left, right). -/
def edgeDotDown {d D : ℕ} (A : SiteT d D) :
    Fin D → Fin D → Fin D → Fin D → Fin D → Fin D → CQ :=
  fun e f g a b c => ∑ m, ∑ i, A m e f i g * (A m a b i c).conj

def edgeDownCode {d D : ℕ} (A : SiteT d D) : Edge3 D :=
  fusePairs3 (transpose031425 (edgeDotDown A))

def edgeDownSpec {d D : ℕ} (A : SiteT d D) : Edge3 D :=
  fun up lp rp => ∑ m, ∑ i, A m up.1 lp.1 i rp.1 * (A m up.2 lp.2 i rp.2).conj

/-- Right edge contraction `((0,4),(0,4))` (line 545): remaining
(up, left, down). -/
def edgeDotRight {d D : ℕ} (A : SiteT d D) :
    Fin D → Fin D → Fin D → Fin D → Fin D → Fin D → CQ :=
  fun e f g a b c => ∑ m, ∑ i, A m e f g i * (A m a b c i).conj

def edgeRightCode {d D : ℕ} (A : SiteT d D) : Edge3 D :=
  fusePairs3 (transpose031425 (edgeDotRight A))

def edgeRightSpec {d D : ℕ} (A : SiteT d D) : Edge3 D :=
  fun up lp dp => ∑ m, ∑ i, A m up.1 lp.1 dp.1 i * (A m up.2 lp.2 dp.2 i).conj

/-- Maximum-squared-modulus predicate: `v` bounds every entry's squared
modulus and is attained.  `t.norm(p='inf') = n` iff `IsMaxSqMat t (n*n)`
with `0 ≤ n`. -/
def IsMaxSqMat {ι : Type} (t : MatI ι) (v : ℚ) : Prop :=
  (∀ i j, (t i j).sqAbs ≤ v) ∧ (∃ i j, (t i j).sqAbs = v)

def IsMaxSqEdge {D : ℕ} (t : Edge3 D) (v : ℚ) : Prop :=
  (∀ p q r, (t p q r).sqAbs ≤ v) ∧ (∃ p q r, (t p q r).sqAbs = v)

/-- Entrywise division of an edge tensor by a real scalar
(`a / a.norm(p='inf')`). -/
def edgeDivQ {D : ℕ} (t : Edge3 D) (n : ℚ) : Edge3 D :=
  fun p q r => (t p q r).divQ n

theorem CQ.sqAbs_divQ (z : CQ) (n : ℚ) : (z.divQ n).sqAbs = z.sqAbs / (n * n) := by
  simp only [CQ.divQ_def, CQ.sqAbs]
  field_simp

theorem sqAbs_div_max_le (a v n : ℚ) (hn : 0 < n) (hv : v = n * n) (ha : a ≤ v) :
    a / (n * n) ≤ 1 := by
  rw [div_le_one (by positivity)]
  rw [← hv]
  exact ha

/-- C4: each initial corner of `init_from_ipeps_pbc` equals the double-layer
contraction over exactly the three legs not adjacent to the corner's two
environment-facing directions with the doubled pairs fused, each initial edge
equals the analogous contraction over its two non-adjacent legs, and
normalizing by the infinity norm makes the maximum squared modulus of the
entries exactly 1 (for any nonzero tensor). -/
theorem init_env_corner_edge_construction :
    (∀ (d D : ℕ) (A : SiteT d D),
      cornerLUCode A = cornerLUSpec A ∧ cornerRUCode A = cornerRUSpec A ∧
      cornerRDCode A = cornerRDSpec A ∧ cornerLDCode A = cornerLDSpec A ∧
      edgeUpCode A = edgeUpSpec A ∧ edgeLeftCode A = edgeLeftSpec A ∧
      edgeDownCode A = edgeDownSpec A ∧ edgeRightCode A = edgeRightSpec A) ∧
    (∀ (ι : Type) (t : MatI ι) (n : ℚ), 0 < n → IsMaxSqMat t (n * n) →
      IsMaxSqMat (mdivQ t n) 1) ∧
    (∀ (D : ℕ) (t : Edge3 D) (n : ℚ), 0 < n → IsMaxSqEdge t (n * n) →
      IsMaxSqEdge (edgeDivQ t n) 1) := by
  refine ⟨?_, ?_, ?_⟩
  · intro d D A
    refine ⟨rfl, rfl, rfl, rfl, rfl, rfl, rfl, rfl⟩
  · intro ι t n hn hmax
    obtain ⟨hub, i0, j0, hat⟩ := hmax
    constructor
    · intro i j
      rw [mdivQ, CQ.sqAbs_divQ]
      exact sqAbs_div_max_le _ _ n hn rfl (hub i j)
    · refine ⟨i0, j0, ?_⟩
      rw [mdivQ, CQ.sqAbs_divQ, hat]
      exact div_self (by positivity)
  · intro D t n hn hmax
    obtain ⟨hub, p0, q0, r0, hat⟩ := hmax
    constructor
    · intro p q r
      rw [edgeDivQ, CQ.sqAbs_divQ]
      exact sqAbs_div_max_le _ _ n hn rfl (hub p q r)
    · refine ⟨p0, q0, r0, ?_⟩
      rw [edgeDivQ, CQ.sqAbs_divQ, hat]
      exact div_self (by positivity)

/-- All-twos on-site tensor with trivial dimensions. -/
def twoSite : SiteT 1 1 := fun _ _ _ _ _ => ⟨2, 0⟩

/-- C4, witness: the corner refinement and the normalization applied to the
concrete all-twos site tensor, whose corner entry is `4` and infinity norm
is `4`. -/
theorem init_env_corner_edge_construction_witness :
    cornerLUCode twoSite = cornerLUSpec twoSite ∧
    (0 : ℚ) < 4 ∧ IsMaxSqMat (cornerLUCode twoSite) (4 * 4) ∧
    IsMaxSqMat (mdivQ (cornerLUCode twoSite) 4) 1 := by
  have hmax : IsMaxSqMat (cornerLUCode twoSite) (4 * 4) := by
    have hval : ∀ i j, (cornerLUCode twoSite i j).sqAbs = 16 := by
      intro i j
      have h : cornerLUCode twoSite i j = ⟨4, 0⟩ := by
        simp [cornerLUCode, fusePairs2, transpose0213, cornerDotLU, twoSite,
          Fin.sum_univ_one, CQ.mul_def, CQ.conj_def, CQ.ext_iff2]
        norm_num
      rw [h]
      show (4 : ℚ) * 4 + 0 * 0 = 16
      norm_num
    constructor
    · intro i j
      rw [hval i j]
      norm_num
    · exact ⟨((0 : Fin 1), (0 : Fin 1)), ((0 : Fin 1), (0 : Fin 1)), by rw [hval]; norm_num⟩
  exact ⟨(init_env_corner_edge_construction.1 1 1 twoSite).1, by norm_num, hmax,
    init_env_corner_edge_construction.2.1 (AuxPair 1) (cornerLUCode twoSite) 4
      (by norm_num) hmax⟩

/-- Double-layer tensor with the two physical legs left open,
`einsum('mefgh,nabcd->eafbgchdmn', a, conj(a))` (src/ctm/generic/rdm.py
line 147), with each doubled auxiliary leg typed as a pair. -/
def doubleLayer {d D : ℕ} (a1 : SiteT d D) :
    AuxPair D → AuxPair D → AuxPair D → AuxPair D → Fin d → Fin d → CQ :=
  fun up lp dp rp m n =>
    a1 m up.1 lp.1 dp.1 rp.1 * (a1 n up.2 lp.2 dp.2 rp.2).conj

/-- Double-layer tensor with the physical legs contracted against a one-site
operator, `einsum('mefgh,nm,nabcd->eafbgchd', a, operator, conj(a))`
(src/ctm/generic/rdm.py line 150). -/
def doubleLayerOp {d D : ℕ} (a1 : SiteT d D) (op : Fin d → Fin d → CQ) :
    AuxPair D → AuxPair D → AuxPair D → AuxPair D → CQ :=
  fun up lp dp rp => ∑ m, ∑ n,
    a1 m up.1 lp.1 dp.1 rp.1 * op n m * (a1 n up.2 lp.2 dp.2 rp.2).conj

/-- `rdm = contract(rdm, a, ([1,2],[1,2]))` (src/ctm/generic/rdm.py
line 160): close the left and bottom auxiliary legs of the `CTCT` corner
against the double-layer tensor. -/
def rdm1x1Step5 {χ D : ℕ} (LD : Fin χ → AuxPair D → AuxPair D → Fin χ → CQ)
    (a2 : AuxPair D → AuxPair D → AuxPair D → AuxPair D → CQ) :
    Fin χ → Fin χ → AuxPair D → AuxPair D → CQ :=
  fun t r ku kr => ∑ kl, ∑ kd, LD t kl kd r * a2 ku kl kd kr

/-- `rdm = contract(T, rdm, ([0,1],[0,2]))` with `T = T(0,-1)` (line 175). -/
def rdm1x1Step6 {χ D : ℕ} (T1 : Fin χ → AuxPair D → Fin χ → CQ)
    (r5 : Fin χ → Fin χ → AuxPair D → AuxPair D → CQ) :
    Fin χ → Fin χ → AuxPair D → CQ :=
  fun tr b kr => ∑ z, ∑ ku, T1 z ku tr * r5 z b ku kr

/-- `rdm = contract(C, rdm, ([0],[0]))` with `C = C(1,-1)` (line 190). -/
def rdm1x1Step7 {χ D : ℕ} (C2 : Fin χ → Fin χ → CQ)
    (r6 : Fin χ → Fin χ → AuxPair D → CQ) : Fin χ → Fin χ → AuxPair D → CQ :=
  fun dn b kr => ∑ z, C2 z dn * r6 z b kr

/-- `rdm = contract(T, rdm, ([0,1],[0,2]))` with `T = T(1,0)` (line 205). -/
def rdm1x1Step8 {χ D : ℕ} (T2 : Fin χ → AuxPair D → Fin χ → CQ)
    (r7 : Fin χ → Fin χ → AuxPair D → CQ) : Fin χ → Fin χ → CQ :=
  fun dn2 b => ∑ z, ∑ kr, T2 z kr dn2 * r7 z b kr

/-- `rdm = contract(rdm, C, ([0,1],[0,1]))` with `C = C(1,1)` (line 220). -/
def rdm1x1Step9 {χ : ℕ} (r8 : Fin χ → Fin χ → CQ) (C3 : Fin χ → Fin χ → CQ) : CQ :=
  ∑ zA, ∑ zB, r8 zA zB * C3 zA zB

/-- The full `rdm1x1` contraction sequence applied to an arbitrary
scalar-valued double-layer tensor `a2` (src/ctm/generic/rdm.py
lines 86-222). -/
def rdm1x1Chain {χ D : ℕ} (C1 C2 C3 C4 : Fin χ → Fin χ → CQ)
    (T1 T2 : Fin χ → AuxPair D → Fin χ → CQ) (T3 : AuxPair D → Fin χ → Fin χ → CQ)
    (T4 : Fin χ → Fin χ → AuxPair D → CQ)
    (a2 : AuxPair D → AuxPair D → AuxPair D → AuxPair D → CQ) : CQ :=
  rdm1x1Step9 (rdm1x1Step8 T2 (rdm1x1Step7 C2 (rdm1x1Step6 T1
    (rdm1x1Step5 (ctctLD C1 T4 C4 T3) a2)))) C3

/-- Embedding of `rdm1x1` (src/ctm/generic/rdm.py lines 57-227) with both
branches of its `operator` parameter: with an operator the chain is run on
the operator-contracted double layer and its scalar value is returned
directly (`Sum.inr`, lines 149-151 and 224-227: the `_sym_pos_def_rdm`
post-processing is applied only on the `operator == None` branch); without
an operator the chain is run once per physical index pair and the resulting
matrix is post-processed by `_sym_pos_def_rdm`. -/
def rdm1x1Py {χ D d : ℕ} (symPosDef : Bool) (U : MatI (Fin d)) (dEig : Fin d → ℚ)
    (C1 C2 C3 C4 : Fin χ → Fin χ → CQ) (T1 T2 : Fin χ → AuxPair D → Fin χ → CQ)
    (T3 : AuxPair D → Fin χ → Fin χ → CQ) (T4 : Fin χ → Fin χ → AuxPair D → CQ)
    (a1 : SiteT d D) (op : Option (Fin d → Fin d → CQ)) : Sum (MatI (Fin d)) CQ :=
  match op with
  | some o => Sum.inr (rdm1x1Chain C1 C2 C3 C4 T1 T2 T3 T4 (doubleLayerOp a1 o))
  | none => Sum.inl (symPosDefMatrix symPosDef U dEig
      (fun m n => rdm1x1Chain C1 C2 C3 C4 T1 T2 T3 T4
        (fun up lp dp rp => doubleLayer a1 up lp dp rp m n)))

theorem ctctLD_closed {χ D : ℕ} (C1 : Fin χ → Fin χ → CQ)
    (T4 : Fin χ → Fin χ → AuxPair D → CQ) (C4 : Fin χ → Fin χ → CQ)
    (T3 : AuxPair D → Fin χ → Fin χ → CQ) (t r : Fin χ) (kl kd : AuxPair D) :
    ctctLD C1 T4 C4 T3 t kl kd r =
      ∑ z3, ∑ z2, ∑ z1, C1 z1 t * T4 z1 z2 kl * C4 z2 z3 * T3 kd z3 r := by
  unfold ctctLD ctctLD3 ctctLD2 ctctLD1
  simp only [Finset.sum_mul]

theorem rdm1x1Step5_closed {χ D : ℕ} (C1 : Fin χ → Fin χ → CQ)
    (T4 : Fin χ → Fin χ → AuxPair D → CQ) (C4 : Fin χ → Fin χ → CQ)
    (T3 : AuxPair D → Fin χ → Fin χ → CQ)
    (a2 : AuxPair D → AuxPair D → AuxPair D → AuxPair D → CQ)
    (t r : Fin χ) (ku kr : AuxPair D) :
    rdm1x1Step5 (ctctLD C1 T4 C4 T3) a2 t r ku kr =
      ∑ kl, ∑ kd, ∑ z3, ∑ z2, ∑ z1,
        C1 z1 t * T4 z1 z2 kl * C4 z2 z3 * T3 kd z3 r * a2 ku kl kd kr := by
  unfold rdm1x1Step5
  simp only [ctctLD_closed, Finset.sum_mul]

theorem rdm1x1Step6_closed {χ D : ℕ} (C1 : Fin χ → Fin χ → CQ)
    (T4 : Fin χ → Fin χ → AuxPair D → CQ) (C4 : Fin χ → Fin χ → CQ)
    (T3 : AuxPair D → Fin χ → Fin χ → CQ) (T1 : Fin χ → AuxPair D → Fin χ → CQ)
    (a2 : AuxPair D → AuxPair D → AuxPair D → AuxPair D → CQ)
    (tr b : Fin χ) (kr : AuxPair D) :
    rdm1x1Step6 T1 (rdm1x1Step5 (ctctLD C1 T4 C4 T3) a2) tr b kr =
      ∑ z8, ∑ ku, ∑ kl, ∑ kd, ∑ z3, ∑ z2, ∑ z1, T1 z8 ku tr *
        (C1 z1 z8 * T4 z1 z2 kl * C4 z2 z3 * T3 kd z3 b * a2 ku kl kd kr) := by
  unfold rdm1x1Step6
  simp only [rdm1x1Step5_closed, Finset.mul_sum]

theorem rdm1x1Step7_closed {χ D : ℕ} (C1 : Fin χ → Fin χ → CQ)
    (T4 : Fin χ → Fin χ → AuxPair D → CQ) (C4 : Fin χ → Fin χ → CQ)
    (T3 : AuxPair D → Fin χ → Fin χ → CQ) (T1 : Fin χ → AuxPair D → Fin χ → CQ)
    (C2 : Fin χ → Fin χ → CQ)
    (a2 : AuxPair D → AuxPair D → AuxPair D → AuxPair D → CQ)
    (dn b : Fin χ) (kr : AuxPair D) :
    rdm1x1Step7 C2 (rdm1x1Step6 T1 (rdm1x1Step5 (ctctLD C1 T4 C4 T3) a2)) dn b kr =
      ∑ z7, ∑ z8, ∑ ku, ∑ kl, ∑ kd, ∑ z3, ∑ z2, ∑ z1, C2 z7 dn * (T1 z8 ku z7 *
        (C1 z1 z8 * T4 z1 z2 kl * C4 z2 z3 * T3 kd z3 b * a2 ku kl kd kr)) := by
  unfold rdm1x1Step7
  simp only [rdm1x1Step6_closed, Finset.mul_sum]

theorem rdm1x1Step8_closed {χ D : ℕ} (C1 : Fin χ → Fin χ → CQ)
    (T4 : Fin χ → Fin χ → AuxPair D → CQ) (C4 : Fin χ → Fin χ → CQ)
    (T3 : AuxPair D → Fin χ → Fin χ → CQ) (T1 T2 : Fin χ → AuxPair D → Fin χ → CQ)
    (C2 : Fin χ → Fin χ → CQ)
    (a2 : AuxPair D → AuxPair D → AuxPair D → AuxPair D → CQ)
    (dn2 b : Fin χ) :
    rdm1x1Step8 T2 (rdm1x1Step7 C2 (rdm1x1Step6 T1
        (rdm1x1Step5 (ctctLD C1 T4 C4 T3) a2))) dn2 b =
      ∑ z6, ∑ kr, ∑ z7, ∑ z8, ∑ ku, ∑ kl, ∑ kd, ∑ z3, ∑ z2, ∑ z1, T2 z6 kr dn2 *
        (C2 z7 z6 * (T1 z8 ku z7 *
          (C1 z1 z8 * T4 z1 z2 kl * C4 z2 z3 * T3 kd z3 b * a2 ku kl kd kr))) := by
  unfold rdm1x1Step8
  simp only [rdm1x1Step7_closed, Finset.mul_sum]

/-- The `rdm1x1` contraction chain evaluates to the single closed network
sum: the ring of four corners and four edges closed around the double-layer
tensor, every bond summed once. -/
theorem rdm1x1Chain_closed {χ D : ℕ} (C1 C2 C3 C4 : Fin χ → Fin χ → CQ)
    (T1 T2 : Fin χ → AuxPair D → Fin χ → CQ) (T3 : AuxPair D → Fin χ → Fin χ → CQ)
    (T4 : Fin χ → Fin χ → AuxPair D → CQ)
    (a2 : AuxPair D → AuxPair D → AuxPair D → AuxPair D → CQ) :
    rdm1x1Chain C1 C2 C3 C4 T1 T2 T3 T4 a2 =
      ∑ z5, ∑ z4, ∑ z6, ∑ kr, ∑ z7, ∑ z8, ∑ ku, ∑ kl, ∑ kd, ∑ z3, ∑ z2, ∑ z1,
        C1 z1 z8 * T1 z8 ku z7 * C2 z7 z6 * T2 z6 kr z5 * C3 z5 z4 *
          T3 kd z3 z4 * C4 z2 z3 * T4 z1 z2 kl * a2 ku kl kd kr := by
  unfold rdm1x1Chain rdm1x1Step9
  apply Finset.sum_congr rfl
  intro z5 _
  apply Finset.sum_congr rfl
  intro z4 _
  rw [rdm1x1Step8_closed]
  rw [Finset.sum_mul]
  apply Finset.sum_congr rfl
  intro z6 _
  rw [Finset.sum_mul]
  apply Finset.sum_congr rfl
  intro kr _
  rw [Finset.sum_mul]
  apply Finset.sum_congr rfl
  intro z7 _
  rw [Finset.sum_mul]
  apply Finset.sum_congr rfl
  intro z8 _
  rw [Finset.sum_mul]
  apply Finset.sum_congr rfl
  intro ku _
  rw [Finset.sum_mul]
  apply Finset.sum_congr rfl
  intro kl _
  rw [Finset.sum_mul]
  apply Finset.sum_congr rfl
  intro kd _
  rw [Finset.sum_mul]
  apply Finset.sum_congr rfl
  intro z3 _
  rw [Finset.sum_mul]
  apply Finset.sum_congr rfl
  intro z2 _
  rw [Finset.sum_mul]
  apply Finset.sum_congr rfl
  intro z1 _
  ring

/-- C10: called with an operator, `rdm1x1` contracts the two physical legs
with the operator inside the double-layer tensor and returns the resulting
scalar network contraction as-is (`Sum.inr`): the symmetrize / positive-
projection / trace-normalization post-processing `_sym_pos_def_rdm` runs only
on the `operator == None` branch, so the returned value is the raw,
unnormalized operator expectation over the environment ring. -/
theorem rdm1x1_operator_branch {χ D d : ℕ} (symPosDef : Bool) (U : MatI (Fin d))
    (dEig : Fin d → ℚ) (C1 C2 C3 C4 : Fin χ → Fin χ → CQ)
    (T1 T2 : Fin χ → AuxPair D → Fin χ → CQ) (T3 : AuxPair D → Fin χ → Fin χ → CQ)
    (T4 : Fin χ → Fin χ → AuxPair D → CQ) (a1 : SiteT d D) (op : Fin d → Fin d → CQ) :
    rdm1x1Py symPosDef U dEig C1 C2 C3 C4 T1 T2 T3 T4 a1 (some op) =
      Sum.inr (∑ z5, ∑ z4, ∑ z6, ∑ kr, ∑ z7, ∑ z8, ∑ ku, ∑ kl, ∑ kd, ∑ z3, ∑ z2, ∑ z1,
        C1 z1 z8 * T1 z8 ku z7 * C2 z7 z6 * T2 z6 kr z5 * C3 z5 z4 *
          T3 kd z3 z4 * C4 z2 z3 * T4 z1 z2 kl *
          (∑ m, ∑ n, a1 m ku.1 kl.1 kd.1 kr.1 * op n m *
            (a1 n ku.2 kl.2 kd.2 kr.2).conj)) := by
  show Sum.inr (rdm1x1Chain C1 C2 C3 C4 T1 T2 T3 T4 (doubleLayerOp a1 op)) = _
  rw [rdm1x1Chain_closed]
  rfl
